import Mathlib

/-!
A shallow embedding of the Collections-C hash table (`src/hashtable.c`) and
proofs about it.

Modelling conventions:
* C `void *` keys are modelled by `Option K`; `none` models the `NULL` key.
* Values are modelled by `V`; a returned `NULL` value pointer is `Option.none`
  of the `Option V` result type.
* The bucket array is a `List (List (TableEntry K V))`; a chain is a list,
  `[]` modelling a `NULL` chain head.  `size_t` quantities that never overflow
  in any reachable execution (size, capacity, threshold) are `Nat`.
* The configured function pointers (`hash`, `key_cmp`) are total Lean
  functions on `Option K`, mirroring the fact that the C function pointers
  accept any pointer value including `NULL`.
* Memory allocation is assumed to succeed inside the table operations (the C
  code reports failure through its return values; the pure model takes the
  success paths).  `hashtable_new_conf_alloc` additionally models the two
  `calloc` calls of `hashtable_new_conf` explicitly, with one flag per call,
  because the creation path's error handling is itself under scrutiny.
-/

namespace CC

/-- Chain node of `hashtable.c` (`TableEntry`): key, value and the digest
cached at insertion time.  The `next` pointer is represented by list
structure. -/
structure TableEntry (K V : Type) where
  key : Option K
  value : V
  hash : Nat
  deriving DecidableEq

/-- The configuration part of `hashtable_s`: the configured hash and
key-comparison function pointers and the load factor (kept as the exact
rational `load_num / load_den`; the default `0.75f` is `3 / 4`, for which the
C float arithmetic is exact). -/
structure HTConf (K : Type) where
  hash : Option K → Nat
  key_cmp : Option K → Option K → Bool
  load_num : Nat
  load_den : Nat

/-- The mutable part of `hashtable_s`. -/
structure HT (K V : Type) where
  capacity : Nat
  size : Nat
  threshold : Nat
  buckets : List (List (TableEntry K V))
  deriving DecidableEq

variable {K V : Type}

/-- The digest an entry for key `k` carries: `hashtable_add` stores
`table->hash(key, ...)` for a non-NULL key and `add_null_key` stores `0` for
the NULL key. -/
def entryHash (conf : HTConf K) : Option K → Nat
  | none => 0
  | some k => conf.hash (some k)

/-- `get_table_index`: `table->hash(key, ...) & (table->capacity - 1)`. -/
def get_table_index (conf : HTConf K) (t : HT K V) (key : Option K) : Nat :=
  conf.hash key &&& (t.capacity - 1)

/-- Sum of the chain lengths of a bucket array. -/
def sumLens (bs : List (List (TableEntry K V))) : Nat :=
  (bs.map List.length).sum

/-- All entries of a table, in bucket-then-chain order. -/
def allEntries (t : HT K V) : List (TableEntry K V) :=
  t.buckets.flatten

/-- Number of entries actually stored across all chains. -/
def totalEntries (t : HT K V) : Nat :=
  sumLens t.buckets

/-- The (key, value) pairs currently stored, in bucket-then-chain order. -/
def kvList (t : HT K V) : List (Option K × V) :=
  (allEntries t).map (fun e => (e.key, e.value))

/-- The chain scan of `hashtable_get`: first entry with
`table->key_cmp(bucket->key, key)` wins. -/
def find_in_chain (cmp : Option K → Option K → Bool) (key : Option K) :
    List (TableEntry K V) → Option V
  | [] => none
  | e :: rest => if cmp e.key key then some e.value else find_in_chain cmp key rest

/-- The chain scan of `get_null_key`: first entry whose key pointer is `NULL`
(structural test, not the comparator). -/
def find_null_in_chain : List (TableEntry K V) → Option V
  | [] => none
  | e :: rest =>
    match e.key with
    | none => some e.value
    | some _ => find_null_in_chain rest

/-- The chain scan of `hashtable_contains_key`:
`table->key_cmp(key, entry->key)`. -/
def contains_in_chain (cmp : Option K → Option K → Bool) (key : Option K) :
    List (TableEntry K V) → Bool
  | [] => false
  | e :: rest => if cmp key e.key then true else contains_in_chain cmp key rest

/-- The replacement scan of `hashtable_add`: find the first entry with
`table->key_cmp(replace->key, key)` and overwrite its value in place;
`none` when the chain holds no matching entry. -/
def replace_in_chain (cmp : Option K → Option K → Bool) (key : Option K) (val : V) :
    List (TableEntry K V) → Option (List (TableEntry K V))
  | [] => none
  | e :: rest =>
    if cmp e.key key then some ({ e with value := val } :: rest)
    else
      match replace_in_chain cmp key val rest with
      | some rest2 => some (e :: rest2)
      | none => none

/-- The replacement scan of `add_null_key`: first entry with a `NULL` key
pointer. -/
def replace_null_in_chain (val : V) :
    List (TableEntry K V) → Option (List (TableEntry K V))
  | [] => none
  | e :: rest =>
    match e.key with
    | none => some ({ e with value := val } :: rest)
    | some _ =>
      match replace_null_in_chain val rest with
      | some rest2 => some (e :: rest2)
      | none => none

/-- The unlink scan of `hashtable_remove`: `table->key_cmp(key, e->key)`;
on a hit the node is unlinked (predecessors keep their order) and its value
returned. -/
def remove_from_chain (cmp : Option K → Option K → Bool) (key : Option K) :
    List (TableEntry K V) → Option (V × List (TableEntry K V))
  | [] => none
  | e :: rest =>
    if cmp key e.key then some (e.value, rest)
    else
      match remove_from_chain cmp key rest with
      | some (v, rest2) => some (v, e :: rest2)
      | none => none

/-- The unlink scan of `remove_null_key`: structural `NULL`-key test. -/
def remove_null_from_chain :
    List (TableEntry K V) → Option (V × List (TableEntry K V))
  | [] => none
  | e :: rest =>
    match e.key with
    | none => some (e.value, rest)
    | some _ =>
      match remove_null_from_chain rest with
      | some (v, rest2) => some (v, e :: rest2)
      | none => none

/-- One step of `move_entries`: prepend entry `e` to the destination chain at
index `e->hash & mask` (`mask = dest_size - 1`). -/
def bucket_push (mask : Nat) (d : List (List (TableEntry K V)))
    (e : TableEntry K V) : List (List (TableEntry K V)) :=
  d.set (e.hash &&& mask) (e :: d.getD (e.hash &&& mask) [])

/-- `move_entries`: walk every source chain head-to-tail and prepend each
entry to its destination chain.  The C loop bound `src_size` equals the
length of the source bucket array at every call site. -/
def move_entries (src dest : List (List (TableEntry K V))) (dest_size : Nat) :
    List (List (TableEntry K V)) :=
  src.foldl (fun d chain => chain.foldl (bucket_push (dest_size - 1)) d) dest

/-- Modelled from the spec: `MAX_POW_TWO` comes from `hashtable.h`, which is
not under `src/`; the spec says only that capacity is "upper-bounded by a
fixed maximum" power of two.  On the 64-bit target modelled here it is the
largest power of two a `size_t` can hold, `2 ^ 63`. -/
def MAX_POW_TWO : Nat := 2 ^ 63

/-- `resize`: no-op (reporting failure, which `hashtable_add` ignores) at the
capacity cap; otherwise a fresh zeroed bucket array of `new_capacity` slots
receives every entry via `move_entries`, and capacity and threshold are
updated.  The `calloc` of the new array is modelled as succeeding. -/
def resize (conf : HTConf K) (t : HT K V) (new_capacity : Nat) : HT K V :=
  if t.capacity = MAX_POW_TWO then t
  else
    { capacity := new_capacity
      size := t.size
      threshold := new_capacity * conf.load_num / conf.load_den
      buckets := move_entries t.buckets (List.replicate new_capacity []) new_capacity }

/-- `add_null_key`: scan bucket 0 for an entry with a `NULL` key and replace
its value, else prepend a fresh entry with key `NULL` and cached hash `0`. -/
def add_null_key (t : HT K V) (val : V) : Bool × HT K V :=
  let chain := t.buckets.getD 0 []
  match replace_null_in_chain val chain with
  | some chain2 => (true, { t with buckets := t.buckets.set 0 chain2 })
  | none =>
    (true, { t with buckets := t.buckets.set 0 (⟨none, val, 0⟩ :: chain)
                    size := t.size + 1 })

/-- `hashtable_add`: grow first when `size >= threshold`, route `NULL` keys to
`add_null_key`, otherwise replace in place or prepend a new entry carrying the
freshly computed digest.  Node allocation is modelled as succeeding. -/
def hashtable_add (conf : HTConf K) (t : HT K V) (key : Option K) (val : V) :
    Bool × HT K V :=
  let t1 := if t.threshold ≤ t.size then resize conf t (t.capacity * 2) else t
  match key with
  | none => add_null_key t1 val
  | some _ =>
    let h := conf.hash key
    let i := h &&& (t1.capacity - 1)
    let chain := t1.buckets.getD i []
    match replace_in_chain conf.key_cmp key val chain with
    | some chain2 => (true, { t1 with buckets := t1.buckets.set i chain2 })
    | none =>
      (true, { t1 with buckets := t1.buckets.set i (⟨key, val, h⟩ :: chain)
                       size := t1.size + 1 })

/-- `get_null_key`. -/
def get_null_key (t : HT K V) : Option V :=
  find_null_in_chain (t.buckets.getD 0 [])

/-- `hashtable_get`: `NULL` keys are routed to `get_null_key` without
hashing; other keys are looked up in bucket `hash & (capacity - 1)`. -/
def hashtable_get (conf : HTConf K) (t : HT K V) (key : Option K) : Option V :=
  match key with
  | none => get_null_key t
  | some _ =>
    find_in_chain conf.key_cmp key (t.buckets.getD (get_table_index conf t key) [])

/-- `remove_null_key`. -/
def remove_null_key (t : HT K V) : Option V × HT K V :=
  match remove_null_from_chain (t.buckets.getD 0 []) with
  | some (v, chain2) =>
    (some v, { t with buckets := t.buckets.set 0 chain2, size := t.size - 1 })
  | none => (none, t)

/-- `hashtable_remove`: `NULL` keys are routed to `remove_null_key`; a hit
unlinks the node, decrements size and returns the stored value; a miss
mutates nothing and returns `NULL`. -/
def hashtable_remove (conf : HTConf K) (t : HT K V) (key : Option K) :
    Option V × HT K V :=
  match key with
  | none => remove_null_key t
  | some _ =>
    let i := get_table_index conf t key
    match remove_from_chain conf.key_cmp key (t.buckets.getD i []) with
    | some (v, chain2) =>
      (some v, { t with buckets := t.buckets.set i chain2, size := t.size - 1 })
    | none => (none, t)

/-- `hashtable_remove_all`: free every node of every chain (decrementing
`size` once per node) and reset every chain head to `NULL`.  The C loop runs
over all `capacity` slots of the bucket array. -/
def hashtable_remove_all (t : HT K V) : HT K V :=
  { t with size := t.size - totalEntries t
           buckets := t.buckets.map (fun _ => []) }

/-- `hashtable_contains_key`.  Note: unlike `hashtable_get` and
`hashtable_remove` there is no `NULL`-key test; the key — `NULL` included —
is passed straight to `get_table_index` and hence to the configured hash
function. -/
def hashtable_contains_key (conf : HTConf K) (t : HT K V) (key : Option K) : Bool :=
  contains_in_chain conf.key_cmp key
    (t.buckets.getD (get_table_index conf t key) [])

/-- `hashtable_size`. -/
def hashtable_size (t : HT K V) : Nat := t.size

/-- `hashtable_capacity`. -/
def hashtable_capacity (t : HT K V) : Nat := t.capacity

/-- The bit-smearing core of `round_pow_two`, one doubling step at a time:
`smearSteps 5 m` is exactly
`m |= m>>1; m |= m>>2; m |= m>>4; m |= m>>8; m |= m>>16`. -/
def smearSteps : Nat → Nat → Nat
  | 0, m => m
  | k + 1, m =>
    let s := smearSteps k m
    s ||| s >>> (2 ^ k)

/-- `round_pow_two`, exactly as in the source: clamp at `MAX_POW_TWO`, map
`0` to `2`, otherwise decrement, smear with shifts `1,2,4,8,16` (there is no
`>> 32` step) and increment. -/
def round_pow_two (n : Nat) : Nat :=
  if MAX_POW_TWO ≤ n then MAX_POW_TWO
  else if n = 0 then 2
  else smearSteps 5 (n - 1) + 1

/-- The successful-allocation path of `hashtable_new_conf`: capacity is the
rounded capacity hint, the bucket array is zeroed (`calloc`), size is `0` and
`threshold = capacity * load_factor`. -/
def hashtable_new_conf (conf : HTConf K) (initial_capacity : Nat) : HT K V :=
  let cap := round_pow_two initial_capacity
  { capacity := cap
    size := 0
    threshold := cap * conf.load_num / conf.load_den
    buckets := List.replicate cap [] }

/-- A table structure as `hashtable_new_conf` actually returns it, with the
bucket-array pointer kept explicit: `buckets = none` models a `NULL` pointer
coming back from the second `calloc`. -/
structure RawTable (K V : Type) where
  capacity : Nat
  size : Nat
  threshold : Nat
  buckets : Option (List (List (TableEntry K V)))
  deriving DecidableEq

/-- `hashtable_new_conf` with both of its `calloc` calls modelled explicitly
(`true` = the call returns memory, `false` = it returns `NULL`).  The code
checks the allocation of the table structure and returns `NULL` if it failed,
but stores the result of the bucket-array `calloc` without any check. -/
def hashtable_new_conf_alloc (conf : HTConf K)
    (initial_capacity : Nat) (table_alloc_ok buckets_alloc_ok : Bool) :
    Option (RawTable K V) :=
  if table_alloc_ok = false then none
  else
    let cap := round_pow_two initial_capacity
    some { capacity := cap
           size := 0
           threshold := cap * conf.load_num / conf.load_den
           buckets := if buckets_alloc_ok then some (List.replicate cap []) else none }

/-- `HashTableIter`.  `next_entry` is the chain suffix headed by the queued
entry (`[]` models a `NULL` pointer); `prev_entry` is the last yielded
entry. -/
structure HashTableIter (K V : Type) where
  table : HT K V
  bucket_index : Nat
  next_entry : List (TableEntry K V)
  prev_entry : Option (TableEntry K V)
  deriving DecidableEq

/-- The initialization scan of `hashtable_iter_init`: first non-empty bucket
from index `i` upward. -/
def first_nonempty_bucket :
    List (List (TableEntry K V)) → Nat → Option (Nat × List (TableEntry K V))
  | [], _ => none
  | c :: rest, i =>
    match c with
    | [] => first_nonempty_bucket rest (i + 1)
    | e :: es => some (i, e :: es)

/-- `hashtable_iter_init`: sets `iter->table`, then scans for the first
non-empty bucket and records it.  When every bucket is empty the loop body
never runs, so `bucket_index`, `next_entry` and `prev_entry` keep whatever
values the caller's struct already held. -/
def hashtable_iter_init (iter : HashTableIter K V) (t : HT K V) :
    HashTableIter K V :=
  let iter1 := { iter with table := t }
  match first_nonempty_bucket t.buckets 0 with
  | some (i, chain) =>
    { iter1 with bucket_index := i, next_entry := chain, prev_entry := none }
  | none => iter1

/-- `hashtable_iter_has_next`: `iter->next_entry != NULL`. -/
def hashtable_iter_has_next (iter : HashTableIter K V) : Bool :=
  !iter.next_entry.isEmpty

/-- One iteration of the `hashtable_hash_string` loop body:
`hash = ((hash << 5) + hash) ^ byte`, in `size_t` arithmetic. -/
def string_hash_step (h b : Nat) : Nat :=
  (((h <<< 5) + h) % 2 ^ 64) ^^^ b

/-- The `while (*str++) hash = ((hash << 5) + hash) ^ *str;` loop over the
byte array (string contents followed by the `NUL` terminator): the head byte
is the one the condition tests, and the body consumes the byte after it. -/
def string_hash_go : List Nat → Nat → Nat
  | [], h => h
  | c :: rest, h =>
    if c = 0 then h else string_hash_go rest (string_hash_step h (rest.headD 0))

/-- `hashtable_hash_string` on a string whose contents are the byte list
`str` (terminator not included).  The `len` and `seed` parameters are in the
signature but never read. -/
def hashtable_hash_string (str : List Nat) (len : Int) (seed : Nat) : Nat :=
  string_hash_go (str ++ [0]) 5381

/-- The string digest as the spec sentence words it: a fold of
`hash = hash*33 XOR byte` over a byte sequence, seeded at `5381`. -/
def spec_string_fold (str : List Nat) : Nat :=
  str.foldl string_hash_step 5381

/-- Structural well-formedness of a table: the bucket array has `capacity`
slots, capacity is positive, every entry carries the digest of its key, every
entry sits in the bucket its cached digest selects, and `size` counts the
entries. -/
def Invariant (conf : HTConf K) (t : HT K V) : Prop :=
  t.buckets.length = t.capacity ∧
  0 < t.capacity ∧
  (∀ e ∈ allEntries t, e.hash = entryHash conf e.key) ∧
  (∀ j < t.buckets.length, ∀ e ∈ t.buckets.getD j [], e.hash &&& (t.capacity - 1) = j) ∧
  t.size = totalEntries t

/-- Tables reachable from creation by the public mutating operations. -/
inductive Reachable (conf : HTConf K) : HT K V → Prop
  | new (initial_capacity : Nat) :
      Reachable conf (hashtable_new_conf conf initial_capacity)
  | add {t : HT K V} (key : Option K) (val : V) :
      Reachable conf t → Reachable conf (hashtable_add conf t key val).2
  | remove {t : HT K V} (key : Option K) :
      Reachable conf t → Reachable conf (hashtable_remove conf t key).2
  | remove_all {t : HT K V} :
      Reachable conf t → Reachable conf (hashtable_remove_all t)

/-- Folding a list of insertions (used to state the growth scenario). -/
def foldAdd (conf : HTConf K) (t : HT K V) (l : List (Option K × V)) : HT K V :=
  l.foldl (fun t p => (hashtable_add conf t p.1 p.2).2) t

/-- The match test used by the replacement scans of `hashtable_add` /
`add_null_key`: `key_cmp(entry->key, key)` for a non-NULL key, a structural
`NULL` test for the NULL key. -/
def MatchAdd (conf : HTConf K) (key : Option K) (e : TableEntry K V) : Prop :=
  match key with
  | none => e.key = none
  | some _ => conf.key_cmp e.key key = true

/-- The match test used by `hashtable_remove` / `remove_null_key`:
`key_cmp(key, e->key)` for a non-NULL key, a structural `NULL` test for the
NULL key. -/
def RemoveMatch (conf : HTConf K) (key : Option K) (e : TableEntry K V) : Prop :=
  match key with
  | none => e.key = none
  | some _ => conf.key_cmp key e.key = true

instance {K V : Type} [DecidableEq K] (conf : HTConf K) (key : Option K)
    (e : TableEntry K V) : Decidable (MatchAdd conf key e) := by
  cases key with
  | none => exact inferInstanceAs (Decidable (e.key = none))
  | some k => exact inferInstanceAs (Decidable (conf.key_cmp e.key (some k) = true))

instance {K V : Type} [DecidableEq K] (conf : HTConf K) (key : Option K)
    (e : TableEntry K V) : Decidable (RemoveMatch conf key e) := by
  cases key with
  | none => exact inferInstanceAs (Decidable (e.key = none))
  | some k => exact inferInstanceAs (Decidable (conf.key_cmp (some k) e.key = true))

instance {K V : Type} (conf : HTConf K) (t : HT K V) : Decidable (Invariant conf t) := by
  unfold Invariant
  infer_instance

/-- A batch of insertions whose keys are self-matching and pairwise
unrelated (distinct pointers and comparator-unequal in both orders). -/
def GoodList (conf : HTConf K) (l : List (Option K × V)) : Prop :=
  (∀ p ∈ l, conf.key_cmp p.1 p.1 = true) ∧
  List.Pairwise
    (fun p q => p.1 ≠ q.1 ∧ conf.key_cmp p.1 q.1 = false ∧ conf.key_cmp q.1 p.1 = false) l

instance {K V : Type} [DecidableEq K] (conf : HTConf K) (l : List (Option K × V)) :
    Decidable (GoodList conf l) := by
  unfold GoodList
  infer_instance

/-- A concrete well-behaved configuration over `Nat` keys, for witnesses. -/
def natConf : HTConf Nat :=
  { hash := fun k => k.getD 0
    key_cmp := fun a b => a == b
    load_num := 3
    load_den := 4 }

/-- A configuration whose hash function is total on `NULL` (as e.g. the
pointer hash is) and sends `NULL` to a nonzero digest, and whose comparator
handles `NULL`; used to exhibit the `hashtable_contains_key` NULL-key bug. -/
def nullConf : HTConf Nat :=
  { hash := fun k => match k with | none => 1 | some n => n
    key_cmp := fun a b => a == b
    load_num := 3
    load_den := 4 }

/-- A table holding only the NULL-key mapping `NULL ↦ 42`. -/
def nullTable : HT Nat Nat :=
  (hashtable_add nullConf (hashtable_new_conf nullConf 4) none 42).2

/-- A fresh default-sized empty table. -/
def emptyTable16 : HT Nat Nat := hashtable_new_conf natConf 16

/-- An iterator struct holding leftover (stale) field values, modelling the
uninitialized local `HashTableIter` a caller passes to
`hashtable_iter_init`. -/
def staleIter : HashTableIter Nat Nat :=
  { table := emptyTable16
    bucket_index := 7
    next_entry := [⟨some 3, 9, 3⟩]
    prev_entry := none }

/-- A one-entry table used by several witnesses. -/
def oneEntryTable : HT Nat Nat :=
  (hashtable_add natConf (hashtable_new_conf natConf 4) (some 1) 10).2

/-- Thirteen distinct keyed insertions, for the growth-scenario witness. -/
def pairs13 : List (Option Nat × Nat) :=
  (List.range 13).map (fun i => (some i, 100 + i))

/-- The part of `hashtable_add` after the growth check (everything from the
`if (!key)` test on), as a standalone function of the possibly-resized table.
`hashtable_add_eq` below proves definitionally that `hashtable_add` is the
growth step followed by this. -/
def add_core (conf : HTConf K) (t1 : HT K V) (key : Option K) (val : V) :
    Bool × HT K V :=
  match key with
  | none => add_null_key t1 val
  | some _ =>
    let h := conf.hash key
    let i := h &&& (t1.capacity - 1)
    let chain := t1.buckets.getD i []
    match replace_in_chain conf.key_cmp key val chain with
    | some chain2 => (true, { t1 with buckets := t1.buckets.set i chain2 })
    | none =>
      (true, { t1 with buckets := t1.buckets.set i (⟨key, val, h⟩ :: chain)
                       size := t1.size + 1 })

/-! ### Generic list lemmas -/

theorem sumLens_cons (c : List (TableEntry K V)) (bs : List (List (TableEntry K V))) :
    sumLens (c :: bs) = c.length + sumLens bs := by
  simp [sumLens]

theorem getD_set_self {α : Type} {l : List α} {i : Nat} (h : i < l.length) (a d : α) :
    (l.set i a).getD i d = a := by
  rw [List.getD_eq_getElem _ _ (by simpa using h)]
  exact List.getElem_set_self _

theorem getD_set_ne {α : Type} {l : List α} {i j : Nat} (h : i ≠ j) (a d : α) :
    (l.set i a).getD j d = l.getD j d := by
  rcases Nat.lt_or_ge j l.length with hj | hj
  · rw [List.getD_eq_getElem _ _ (by simpa using hj), List.getD_eq_getElem _ _ hj]
    exact List.getElem_set_ne h _
  · rw [List.getD_eq_default _ _ (by simpa using hj), List.getD_eq_default _ _ hj]

theorem mem_getD_flatten {α : Type} {bs : List (List α)} {j : Nat} {e : α}
    (h : e ∈ bs.getD j []) : e ∈ bs.flatten := by
  rcases Nat.lt_or_ge j bs.length with hj | hj
  · rw [List.getD_eq_getElem _ _ hj] at h
    exact List.mem_flatten.2 ⟨bs[j], List.getElem_mem hj, h⟩
  · rw [List.getD_eq_default _ _ hj] at h
    cases h

theorem mem_flatten_getD {α : Type} {bs : List (List α)} {e : α} (h : e ∈ bs.flatten) :
    ∃ j, j < bs.length ∧ e ∈ bs.getD j [] := by
  rcases List.mem_flatten.1 h with ⟨c, hc, he⟩
  rcases List.mem_iff_getElem.1 hc with ⟨j, hj, rfl⟩
  exact ⟨j, hj, by rw [List.getD_eq_getElem _ _ hj]; exact he⟩

theorem sumLens_set {bs : List (List (TableEntry K V))} {i : Nat} (h : i < bs.length)
    (c : List (TableEntry K V)) :
    sumLens (bs.set i c) + (bs.getD i []).length = sumLens bs + c.length := by
  induction bs generalizing i with
  | nil => simp at h
  | cons b bs ih =>
    cases i with
    | zero => simp [sumLens_cons]; omega
    | succ n =>
      have hn : n < bs.length := by simpa using h
      have := ih hn
      simp only [List.set, sumLens_cons, List.getD_cons_succ]
      omega

theorem flatten_set_cons_perm {α : Type} {bs : List (List α)} {i : Nat}
    (h : i < bs.length) (x : α) :
    ((bs.set i (x :: bs.getD i [])).flatten).Perm (x :: bs.flatten) := by
  induction bs generalizing i with
  | nil => simp at h
  | cons b bs ih =>
    cases i with
    | zero => simp
    | succ n =>
      have hn : n < bs.length := by simpa using h
      simp only [List.set, List.getD_cons_succ, List.flatten_cons]
      exact ((ih hn).append_left b).trans List.perm_middle

theorem mem_flatten_set {α : Type} {bs : List (List α)} {i : Nat} {c : List α} {e : α}
    (h : e ∈ (bs.set i c).flatten) : e ∈ c ∨ e ∈ bs.flatten := by
  rcases mem_flatten_getD h with ⟨j, hj, hje⟩
  rw [List.length_set] at hj
  by_cases hij : i = j
  · subst hij
    rw [getD_set_self hj] at hje
    exact Or.inl hje
  · rw [getD_set_ne hij] at hje
    exact Or.inr (mem_getD_flatten hje)

theorem getD_map_nil {α β : Type} (bs : List (List α)) (j : Nat) :
    ((bs.map fun _ => ([] : List β)).getD j []) = [] := by
  rcases Nat.lt_or_ge j bs.length with hj | hj
  · rw [List.getD_eq_getElem _ _ (by simpa using hj)]
    simp
  · exact List.getD_eq_default _ _ (by simpa using hj)

theorem sumLens_map_nil (bs : List (List (TableEntry K V))) :
    sumLens (bs.map fun _ => ([] : List (TableEntry K V))) = 0 := by
  induction bs with
  | nil => rfl
  | cons b bs ih => simpa [sumLens_cons] using ih

theorem flatten_replicate_nil {α : Type} (n : Nat) :
    ((List.replicate n ([] : List α)).flatten) = [] := by
  induction n with
  | zero => rfl
  | succ n ih => simp [List.replicate_succ, ih]

theorem getD_replicate_nil {α : Type} (n j : Nat) :
    ((List.replicate n ([] : List α)).getD j []) = [] := by
  rcases Nat.lt_or_ge j n with hj | hj
  · rw [List.getD_eq_getElem _ _ (by simpa using hj)]
    simp
  · exact List.getD_eq_default _ _ (by simpa using hj)

theorem sumLens_replicate_nil (n : Nat) :
    sumLens (List.replicate n ([] : List (TableEntry K V))) = 0 := by
  induction n with
  | zero => rfl
  | succ n ih => simpa [List.replicate_succ, sumLens_cons] using ih

/-! ### Chain-scan lemmas -/

theorem find_in_chain_some {cmp : Option K → Option K → Bool} {key : Option K}
    {c : List (TableEntry K V)} (hex : ∃ e ∈ c, cmp e.key key = true) :
    ∃ e ∈ c, cmp e.key key = true ∧ find_in_chain cmp key c = some e.value := by
  induction c with
  | nil => simp at hex
  | cons a c ih =>
    by_cases ha : cmp a.key key = true
    · exact ⟨a, List.mem_cons_self a c, ha, by simp [find_in_chain, ha]⟩
    · have ha2 : cmp a.key key = false := by simpa using ha
      rcases hex with ⟨e, he, hcmp⟩
      rcases List.mem_cons.1 he with rfl | he
      · exact absurd hcmp ha
      · rcases ih ⟨e, he, hcmp⟩ with ⟨e2, he2, h1, h2⟩
        exact ⟨e2, List.mem_cons_of_mem _ he2, h1, by simp [find_in_chain, ha2, h2]⟩

theorem find_null_in_chain_some {c : List (TableEntry K V)}
    (hex : ∃ e ∈ c, e.key = none) :
    ∃ e ∈ c, e.key = none ∧ find_null_in_chain c = some e.value := by
  induction c with
  | nil => simp at hex
  | cons a c ih =>
    cases ha : a.key with
    | none => exact ⟨a, List.mem_cons_self a c, ha, by simp [find_null_in_chain, ha]⟩
    | some k =>
      rcases hex with ⟨e, he, hkey⟩
      rcases List.mem_cons.1 he with rfl | he
      · rw [ha] at hkey; cases hkey
      · rcases ih ⟨e, he, hkey⟩ with ⟨e2, he2, h1, h2⟩
        exact ⟨e2, List.mem_cons_of_mem _ he2, h1, by simp [find_null_in_chain, ha, h2]⟩

theorem replace_in_chain_none_of_forall {cmp : Option K → Option K → Bool}
    {key : Option K} (val : V) {c : List (TableEntry K V)}
    (h : ∀ e ∈ c, cmp e.key key = false) :
    replace_in_chain cmp key val c = none := by
  induction c with
  | nil => rfl
  | cons a c ih =>
    have ha : cmp a.key key = false := h a (List.mem_cons_self a c)
    have hc : replace_in_chain cmp key val c = none :=
      ih (fun e he => h e (List.mem_cons_of_mem _ he))
    simp [replace_in_chain, ha, hc]

theorem replace_in_chain_some_of_mem {cmp : Option K → Option K → Bool}
    {key : Option K} (val : V) {c : List (TableEntry K V)}
    (hex : ∃ e ∈ c, cmp e.key key = true) :
    ∃ c2, replace_in_chain cmp key val c = some c2 := by
  induction c with
  | nil => simp at hex
  | cons a c ih =>
    by_cases ha : cmp a.key key = true
    · exact ⟨{ a with value := val } :: c, by rw [replace_in_chain, if_pos ha]⟩
    · have ha2 : cmp a.key key = false := by simpa using ha
      rcases hex with ⟨e, he, hcmp⟩
      rcases List.mem_cons.1 he with rfl | he
      · exact absurd hcmp ha
      · rcases ih ⟨e, he, hcmp⟩ with ⟨c2, hc2⟩
        exact ⟨a :: c2, by simp [replace_in_chain, ha2, hc2]⟩

theorem replace_in_chain_spec {cmp : Option K → Option K → Bool}
    {key : Option K} {val : V} {c c2 : List (TableEntry K V)}
    (h : replace_in_chain cmp key val c = some c2) :
    find_in_chain cmp key c2 = some val ∧
    c2.length = c.length ∧
    (∀ e2 ∈ c2, ∃ e ∈ c, e2.key = e.key ∧ e2.hash = e.hash) ∧
    (∃ e2 ∈ c2, cmp e2.key key = true ∧ e2.value = val) := by
  induction c generalizing c2 with
  | nil => simp [replace_in_chain] at h
  | cons a c ih =>
    by_cases ha : cmp a.key key = true
    · rw [replace_in_chain, if_pos ha] at h
      rcases Option.some.inj h with rfl
      refine ⟨by simp [find_in_chain, ha], by simp, ?_, ?_⟩
      · intro e2 he2
        rcases List.mem_cons.1 he2 with rfl | he2
        · exact ⟨a, List.mem_cons_self a c, rfl, rfl⟩
        · exact ⟨e2, List.mem_cons_of_mem _ he2, rfl, rfl⟩
      · exact ⟨_, List.mem_cons_self _ _, ha, rfl⟩
    · have ha2 : cmp a.key key = false := by simpa using ha
      rw [replace_in_chain, if_neg (by simp [ha2])] at h
      cases hr : replace_in_chain cmp key val c with
      | none => rw [hr] at h; cases h
      | some c2a =>
        rw [hr] at h
        rcases Option.some.inj h with rfl
        rcases ih hr with ⟨h1, h2, h3, e2, he2, h4, h5⟩
        refine ⟨by simp [find_in_chain, ha2, h1], by simp [h2], ?_, ?_⟩
        · intro x hx
          rcases List.mem_cons.1 hx with rfl | hx
          · exact ⟨x, List.mem_cons_self x c, rfl, rfl⟩
          · rcases h3 x hx with ⟨e, he, hk, hh⟩
            exact ⟨e, List.mem_cons_of_mem _ he, hk, hh⟩
        · exact ⟨e2, List.mem_cons_of_mem _ he2, h4, h5⟩

theorem replace_null_in_chain_none_of_forall (val : V) {c : List (TableEntry K V)}
    (h : ∀ e ∈ c, e.key ≠ none) :
    replace_null_in_chain val c = none := by
  induction c with
  | nil => rfl
  | cons a c ih =>
    cases ha : a.key with
    | none => exact absurd ha (h a (List.mem_cons_self a c))
    | some k =>
      have hc : replace_null_in_chain val c = none :=
        ih (fun e he => h e (List.mem_cons_of_mem _ he))
      simp [replace_null_in_chain, ha, hc]

theorem replace_null_in_chain_some_of_mem (val : V) {c : List (TableEntry K V)}
    (hex : ∃ e ∈ c, e.key = none) :
    ∃ c2, replace_null_in_chain val c = some c2 := by
  induction c with
  | nil => simp at hex
  | cons a c ih =>
    cases ha : a.key with
    | none =>
      refine ⟨{ a with value := val } :: c, ?_⟩
      rw [replace_null_in_chain, ha]
    | some k =>
      rcases hex with ⟨e, he, hkey⟩
      rcases List.mem_cons.1 he with rfl | he
      · rw [ha] at hkey; cases hkey
      · rcases ih ⟨e, he, hkey⟩ with ⟨c2, hc2⟩
        exact ⟨a :: c2, by simp [replace_null_in_chain, ha, hc2]⟩

theorem replace_null_in_chain_spec {val : V} {c c2 : List (TableEntry K V)}
    (h : replace_null_in_chain val c = some c2) :
    find_null_in_chain c2 = some val ∧
    c2.length = c.length ∧
    (∀ e2 ∈ c2, ∃ e ∈ c, e2.key = e.key ∧ e2.hash = e.hash) ∧
    (∃ e2 ∈ c2, e2.key = none ∧ e2.value = val) := by
  induction c generalizing c2 with
  | nil => simp [replace_null_in_chain] at h
  | cons a c ih =>
    cases ha : a.key with
    | none =>
      rw [replace_null_in_chain, ha] at h
      rcases Option.some.inj h with rfl
      refine ⟨by simp [find_null_in_chain], by simp, ?_, ?_⟩
      · intro e2 he2
        rcases List.mem_cons.1 he2 with rfl | he2
        · exact ⟨a, List.mem_cons_self a c, by simp [ha], rfl⟩
        · exact ⟨e2, List.mem_cons_of_mem _ he2, rfl, rfl⟩
      · exact ⟨_, List.mem_cons_self _ _, rfl, rfl⟩
    | some k =>
      rw [replace_null_in_chain, ha] at h
      cases hr : replace_null_in_chain val c with
      | none => rw [hr] at h; cases h
      | some c2a =>
        rw [hr] at h
        rcases Option.some.inj h with rfl
        rcases ih hr with ⟨h1, h2, h3, e2, he2, h4, h5⟩
        refine ⟨by simp [find_null_in_chain, ha, h1], by simp [h2], ?_, ?_⟩
        · intro x hx
          rcases List.mem_cons.1 hx with rfl | hx
          · exact ⟨x, List.mem_cons_self x c, rfl, rfl⟩
          · rcases h3 x hx with ⟨e, he, hk, hh⟩
            exact ⟨e, List.mem_cons_of_mem _ he, hk, hh⟩
        · exact ⟨e2, List.mem_cons_of_mem _ he2, h4, h5⟩

theorem remove_from_chain_none_of_forall {cmp : Option K → Option K → Bool}
    {key : Option K} {c : List (TableEntry K V)}
    (h : ∀ e ∈ c, cmp key e.key = false) :
    remove_from_chain cmp key c = none := by
  induction c with
  | nil => rfl
  | cons a c ih =>
    have ha : cmp key a.key = false := h a (List.mem_cons_self a c)
    have hc : remove_from_chain cmp key c = none :=
      ih (fun e he => h e (List.mem_cons_of_mem _ he))
    simp [remove_from_chain, ha, hc]

theorem remove_from_chain_spec {cmp : Option K → Option K → Bool}
    {key : Option K} {v : V} {c c2 : List (TableEntry K V)}
    (h : remove_from_chain cmp key c = some (v, c2)) :
    c2.length + 1 = c.length ∧ ∀ e2 ∈ c2, e2 ∈ c := by
  induction c generalizing c2 with
  | nil => simp [remove_from_chain] at h
  | cons a c ih =>
    by_cases ha : cmp key a.key = true
    · rw [remove_from_chain, if_pos ha] at h
      rcases Prod.mk.injEq .. ▸ Option.some.inj h with ⟨rfl, rfl⟩
      exact ⟨by simp, fun e2 he2 => List.mem_cons_of_mem _ he2⟩
    · have ha2 : cmp key a.key = false := by simpa using ha
      rw [remove_from_chain, if_neg (by simp [ha2])] at h
      cases hr : remove_from_chain cmp key c with
      | none => rw [hr] at h; cases h
      | some p =>
        rcases p with ⟨v2, c2a⟩
        rw [hr] at h
        rcases Prod.mk.injEq .. ▸ Option.some.inj h with ⟨rfl, rfl⟩
        rcases ih hr with ⟨h1, h2⟩
        constructor
        · simp [← h1]
        · intro x hx
          rcases List.mem_cons.1 hx with rfl | hx
          · exact List.mem_cons_self x c
          · exact List.mem_cons_of_mem _ (h2 x hx)

theorem remove_null_from_chain_none_of_forall {c : List (TableEntry K V)}
    (h : ∀ e ∈ c, e.key ≠ none) :
    remove_null_from_chain c = none := by
  induction c with
  | nil => rfl
  | cons a c ih =>
    cases ha : a.key with
    | none => exact absurd ha (h a (List.mem_cons_self a c))
    | some k =>
      have hc : remove_null_from_chain c = none :=
        ih (fun e he => h e (List.mem_cons_of_mem _ he))
      simp [remove_null_from_chain, ha, hc]

theorem remove_null_from_chain_spec {v : V} {c c2 : List (TableEntry K V)}
    (h : remove_null_from_chain c = some (v, c2)) :
    c2.length + 1 = c.length ∧ ∀ e2 ∈ c2, e2 ∈ c := by
  induction c generalizing c2 with
  | nil => simp [remove_null_from_chain] at h
  | cons a c ih =>
    cases ha : a.key with
    | none =>
      rw [remove_null_from_chain, ha] at h
      rcases Prod.mk.injEq .. ▸ Option.some.inj h with ⟨rfl, rfl⟩
      exact ⟨by simp, fun e2 he2 => List.mem_cons_of_mem _ he2⟩
    | some k =>
      rw [remove_null_from_chain, ha] at h
      cases hr : remove_null_from_chain c with
      | none => rw [hr] at h; cases h
      | some p =>
        rcases p with ⟨v2, c2a⟩
        rw [hr] at h
        rcases Prod.mk.injEq .. ▸ Option.some.inj h with ⟨rfl, rfl⟩
        rcases ih hr with ⟨h1, h2⟩
        constructor
        · simp [← h1]
        · intro x hx
          rcases List.mem_cons.1 hx with rfl | hx
          · exact List.mem_cons_self x c
          · exact List.mem_cons_of_mem _ (h2 x hx)

/-! ### move_entries and resize -/

theorem sumLens_eq_length_flatten (bs : List (List (TableEntry K V))) :
    sumLens bs = bs.flatten.length := by
  simp [sumLens, List.length_flatten]

theorem length_bucket_push (mask : Nat) (d : List (List (TableEntry K V)))
    (e : TableEntry K V) :
    (bucket_push mask d e).length = d.length := by
  simp [bucket_push]

theorem length_foldl_push (mask : Nat) (es : List (TableEntry K V))
    (d : List (List (TableEntry K V))) :
    (es.foldl (bucket_push mask) d).length = d.length := by
  induction es generalizing d with
  | nil => rfl
  | cons e es ih => rw [List.foldl_cons, ih, length_bucket_push]

theorem sumLens_bucket_push {mask : Nat} {d : List (List (TableEntry K V))}
    {e : TableEntry K V} (h : e.hash &&& mask < d.length) :
    sumLens (bucket_push mask d e) = sumLens d + 1 := by
  have h2 := sumLens_set h (e :: d.getD (e.hash &&& mask) [])
  simp only [List.length_cons] at h2
  simp only [bucket_push]
  omega

theorem sumLens_foldl_push {mask : Nat} {es : List (TableEntry K V)}
    {d : List (List (TableEntry K V))}
    (h : ∀ e ∈ es, e.hash &&& mask < d.length) :
    sumLens (es.foldl (bucket_push mask) d) = sumLens d + es.length := by
  induction es generalizing d with
  | nil => rfl
  | cons e es ih =>
    have he : e.hash &&& mask < d.length := h e (List.mem_cons_self e es)
    have hrest : ∀ x ∈ es, x.hash &&& mask < (bucket_push mask d e).length := by
      rw [length_bucket_push]
      exact fun x hx => h x (List.mem_cons_of_mem _ hx)
    rw [List.foldl_cons, ih hrest, sumLens_bucket_push he]
    simp
    omega

theorem flatten_foldl_push_perm {mask : Nat} {es : List (TableEntry K V)}
    {d : List (List (TableEntry K V))}
    (h : ∀ e ∈ es, e.hash &&& mask < d.length) :
    ((es.foldl (bucket_push mask) d).flatten).Perm (es ++ d.flatten) := by
  induction es generalizing d with
  | nil => simp
  | cons e es ih =>
    have he : e.hash &&& mask < d.length := h e (List.mem_cons_self e es)
    have hrest : ∀ x ∈ es, x.hash &&& mask < (bucket_push mask d e).length := by
      rw [length_bucket_push]
      exact fun x hx => h x (List.mem_cons_of_mem _ hx)
    have hstep : ((bucket_push mask d e).flatten).Perm (e :: d.flatten) :=
      flatten_set_cons_perm he e
    rw [List.foldl_cons]
    exact (ih hrest).trans ((hstep.append_left es).trans List.perm_middle)

theorem getD_bucket_push_placed {mask : Nat} {d : List (List (TableEntry K V))}
    {e x : TableEntry K V} {j : Nat}
    (hx : x ∈ (bucket_push mask d e).getD j []) :
    x ∈ d.getD j [] ∨ x.hash &&& mask = j := by
  by_cases hij : e.hash &&& mask = j
  · subst hij
    by_cases hlen : e.hash &&& mask < d.length
    · rw [bucket_push, getD_set_self hlen] at hx
      rcases List.mem_cons.1 hx with rfl | hx
      · exact Or.inr rfl
      · exact Or.inl hx
    · rw [bucket_push, List.set_eq_of_length_le (Nat.le_of_not_lt hlen)] at hx
      exact Or.inl hx
  · rw [bucket_push, getD_set_ne hij] at hx
    exact Or.inl hx

theorem foldl_push_placed {mask : Nat} {es : List (TableEntry K V)}
    {d : List (List (TableEntry K V))} {j : Nat} {x : TableEntry K V}
    (hx : x ∈ (es.foldl (bucket_push mask) d).getD j []) :
    x ∈ d.getD j [] ∨ x.hash &&& mask = j := by
  induction es generalizing d with
  | nil => exact Or.inl hx
  | cons e es ih =>
    rw [List.foldl_cons] at hx
    rcases ih hx with hx2 | hx2
    · exact getD_bucket_push_placed hx2
    · exact Or.inr hx2

theorem mem_getD_bucket_push_mono {mask : Nat} {d : List (List (TableEntry K V))}
    {e x : TableEntry K V} {j : Nat} (hx : x ∈ d.getD j []) :
    x ∈ (bucket_push mask d e).getD j [] := by
  by_cases hij : e.hash &&& mask = j
  · subst hij
    by_cases hlen : e.hash &&& mask < d.length
    · rw [bucket_push, getD_set_self hlen]
      exact List.mem_cons_of_mem _ hx
    · rw [bucket_push, List.set_eq_of_length_le (Nat.le_of_not_lt hlen)]
      exact hx
  · rw [bucket_push, getD_set_ne hij]
    exact hx

theorem foldl_push_mem_mono {mask : Nat} {es : List (TableEntry K V)}
    {d : List (List (TableEntry K V))} {x : TableEntry K V} {j : Nat}
    (hx : x ∈ d.getD j []) :
    x ∈ (es.foldl (bucket_push mask) d).getD j [] := by
  induction es generalizing d with
  | nil => exact hx
  | cons e es ih =>
    rw [List.foldl_cons]
    exact ih (mem_getD_bucket_push_mono hx)

theorem foldl_push_mem_self {mask : Nat} {es : List (TableEntry K V)}
    {d : List (List (TableEntry K V))} {x : TableEntry K V}
    (hx : x ∈ es) (hlen : x.hash &&& mask < d.length) :
    x ∈ (es.foldl (bucket_push mask) d).getD (x.hash &&& mask) [] := by
  induction es generalizing d with
  | nil => cases hx
  | cons e es ih =>
    rw [List.foldl_cons]
    rcases List.mem_cons.1 hx with rfl | hx2
    · have hbase : x ∈ (bucket_push mask d x).getD (x.hash &&& mask) [] := by
        rw [bucket_push, getD_set_self hlen]
        exact List.mem_cons_self _ _
      exact foldl_push_mem_mono hbase
    · exact ih hx2 (by rw [length_bucket_push]; exact hlen)

theorem move_entries_eq_foldl (src dest : List (List (TableEntry K V))) (m : Nat) :
    move_entries src dest m = src.flatten.foldl (bucket_push (m - 1)) dest := by
  simp only [move_entries]
  induction src generalizing dest with
  | nil => rfl
  | cons c src ih =>
    rw [List.foldl_cons, List.flatten_cons, List.foldl_append, ih]

theorem mem_bucket_of_mem_allEntries {conf : HTConf K} {t : HT K V}
    (hinv : Invariant conf t) {e : TableEntry K V} (he : e ∈ allEntries t) :
    e ∈ t.buckets.getD (e.hash &&& (t.capacity - 1)) [] ∧
    e.hash &&& (t.capacity - 1) < t.buckets.length := by
  obtain ⟨hlen, hpos, hhash, hplace, hcount⟩ := hinv
  rcases mem_flatten_getD he with ⟨j, hj, hje⟩
  have hejp := hplace j hj e hje
  exact ⟨by rw [hejp]; exact hje, by rw [hejp]; exact hj⟩

theorem resize_double_spec (conf : HTConf K) {t : HT K V} (hinv : Invariant conf t) :
    Invariant conf (resize conf t (t.capacity * 2)) ∧
    (allEntries (resize conf t (t.capacity * 2))).Perm (allEntries t) ∧
    (resize conf t (t.capacity * 2)).size = t.size := by
  by_cases hmax : t.capacity = MAX_POW_TWO
  · rw [resize, if_pos hmax]
    exact ⟨hinv, List.Perm.refl _, rfl⟩
  · rw [resize, if_neg hmax]
    obtain ⟨hlen, hpos, hhash, hplace, hcount⟩ := hinv
    have hm : 0 < t.capacity * 2 := by omega
    have hdlen : (List.replicate (t.capacity * 2) ([] : List (TableEntry K V))).length
        = t.capacity * 2 := by simp
    have hin : ∀ e ∈ t.buckets.flatten,
        e.hash &&& (t.capacity * 2 - 1)
          < (List.replicate (t.capacity * 2) ([] : List (TableEntry K V))).length := by
      intro e _
      rw [hdlen]
      exact Nat.lt_of_le_of_lt Nat.and_le_right (by omega)
    have hperm : ((move_entries t.buckets
          (List.replicate (t.capacity * 2) []) (t.capacity * 2)).flatten).Perm
        (allEntries t) := by
      rw [move_entries_eq_foldl]
      have := flatten_foldl_push_perm hin
      rw [flatten_replicate_nil] at this
      simpa [allEntries] using this
    refine ⟨⟨?_, hm, ?_, ?_, ?_⟩, hperm, rfl⟩
    · rw [move_entries_eq_foldl, length_foldl_push, hdlen]
    · intro e he
      exact hhash e (hperm.mem_iff.1 he)
    · intro j hj x hxj
      rw [move_entries_eq_foldl] at hxj
      rcases foldl_push_placed hxj with hx2 | hx2
      · rw [getD_replicate_nil] at hx2
        cases hx2
      · exact hx2
    · show t.size = sumLens
        (move_entries t.buckets (List.replicate (t.capacity * 2) []) (t.capacity * 2))
      rw [move_entries_eq_foldl, sumLens_foldl_push hin, sumLens_replicate_nil,
        ← sumLens_eq_length_flatten]
      simpa [totalEntries] using hcount

/-! ### Table-level helper lemmas -/

theorem hashtable_add_eq (conf : HTConf K) (t : HT K V) (key : Option K) (val : V) :
    hashtable_add conf t key val =
      add_core conf (if t.threshold ≤ t.size then resize conf t (t.capacity * 2) else t)
        key val := by
  cases key <;> rfl

theorem totalEntries_eq_length_allEntries (t : HT K V) :
    totalEntries t = (allEntries t).length :=
  sumLens_eq_length_flatten t.buckets

theorem preResize_spec (conf : HTConf K) {t : HT K V} (hinv : Invariant conf t) :
    Invariant conf (if t.threshold ≤ t.size then resize conf t (t.capacity * 2) else t) ∧
    (allEntries (if t.threshold ≤ t.size then resize conf t (t.capacity * 2) else t)).Perm
      (allEntries t) ∧
    (if t.threshold ≤ t.size then resize conf t (t.capacity * 2) else t).size = t.size := by
  by_cases hc : t.threshold ≤ t.size
  · rw [if_pos hc]
    exact resize_double_spec conf hinv
  · rw [if_neg hc]
    exact ⟨hinv, List.Perm.refl _, rfl⟩

theorem Invariant_set_chain (conf : HTConf K) {t1 : HT K V} (hinv : Invariant conf t1)
    {j : Nat} (hj : j < t1.buckets.length) {c2 : List (TableEntry K V)}
    (hsub : ∀ x ∈ c2, ∃ e ∈ t1.buckets.getD j [], x.key = e.key ∧ x.hash = e.hash)
    (hlen2 : c2.length = (t1.buckets.getD j []).length) :
    Invariant conf { t1 with buckets := t1.buckets.set j c2 } := by
  obtain ⟨hlen, hpos, hhash, hplace, hcount⟩ := hinv
  refine ⟨?_, hpos, ?_, ?_, ?_⟩
  · show (t1.buckets.set j c2).length = t1.capacity
    rw [List.length_set]
    exact hlen
  · show ∀ e ∈ (t1.buckets.set j c2).flatten, e.hash = entryHash conf e.key
    intro x hx
    rcases mem_flatten_set hx with hx2 | hx2
    · rcases hsub x hx2 with ⟨e, he, hk, hh⟩
      rw [hk, hh]
      exact hhash e (mem_getD_flatten he)
    · exact hhash x hx2
  · show ∀ j2 < (t1.buckets.set j c2).length, ∀ x ∈ (t1.buckets.set j c2).getD j2 [],
      x.hash &&& (t1.capacity - 1) = j2
    intro j2 hj2 x hx
    rw [List.length_set] at hj2
    by_cases hjj : j = j2
    · subst hjj
      rw [getD_set_self hj] at hx
      rcases hsub x hx with ⟨e, he, hk, hh⟩
      rw [hh]
      exact hplace j hj e he
    · rw [getD_set_ne hjj] at hx
      exact hplace j2 hj2 x hx
  · show t1.size = sumLens (t1.buckets.set j c2)
    have h2 := sumLens_set hj c2
    have h3 : sumLens (t1.buckets.set j c2) = sumLens t1.buckets := by omega
    rw [h3]
    exact hcount

theorem Invariant_prepend (conf : HTConf K) {t1 : HT K V} (hinv : Invariant conf t1)
    {j : Nat} (hj : j < t1.buckets.length) {x0 : TableEntry K V}
    (hx0hash : x0.hash = entryHash conf x0.key)
    (hx0place : x0.hash &&& (t1.capacity - 1) = j) :
    Invariant conf { t1 with buckets := t1.buckets.set j (x0 :: t1.buckets.getD j [])
                             size := t1.size + 1 } := by
  obtain ⟨hlen, hpos, hhash, hplace, hcount⟩ := hinv
  refine ⟨?_, hpos, ?_, ?_, ?_⟩
  · show (t1.buckets.set j (x0 :: t1.buckets.getD j [])).length = t1.capacity
    rw [List.length_set]
    exact hlen
  · show ∀ e ∈ (t1.buckets.set j (x0 :: t1.buckets.getD j [])).flatten,
      e.hash = entryHash conf e.key
    intro x hx
    rcases mem_flatten_set hx with hx2 | hx2
    · rcases List.mem_cons.1 hx2 with rfl | hx3
      · exact hx0hash
      · exact hhash x (mem_getD_flatten hx3)
    · exact hhash x hx2
  · show ∀ j2 < (t1.buckets.set j (x0 :: t1.buckets.getD j [])).length,
      ∀ x ∈ (t1.buckets.set j (x0 :: t1.buckets.getD j [])).getD j2 [],
      x.hash &&& (t1.capacity - 1) = j2
    intro j2 hj2 x hx
    rw [List.length_set] at hj2
    by_cases hjj : j = j2
    · subst hjj
      rw [getD_set_self hj] at hx
      rcases List.mem_cons.1 hx with rfl | hx3
      · exact hx0place
      · exact hplace j hj x hx3
    · rw [getD_set_ne hjj] at hx
      exact hplace j2 hj2 x hx
  · show t1.size + 1 = sumLens (t1.buckets.set j (x0 :: t1.buckets.getD j []))
    have h2 := sumLens_set hj (x0 :: t1.buckets.getD j [])
    simp only [List.length_cons] at h2
    have hc : t1.size = sumLens t1.buckets := hcount
    omega

theorem Invariant_unlink (conf : HTConf K) {t1 : HT K V} (hinv : Invariant conf t1)
    {j : Nat} (hj : j < t1.buckets.length) {c2 : List (TableEntry K V)}
    (hsub : ∀ x ∈ c2, x ∈ t1.buckets.getD j [])
    (hlen2 : c2.length + 1 = (t1.buckets.getD j []).length) :
    Invariant conf { t1 with buckets := t1.buckets.set j c2, size := t1.size - 1 } := by
  obtain ⟨hlen, hpos, hhash, hplace, hcount⟩ := hinv
  refine ⟨?_, hpos, ?_, ?_, ?_⟩
  · show (t1.buckets.set j c2).length = t1.capacity
    rw [List.length_set]
    exact hlen
  · show ∀ e ∈ (t1.buckets.set j c2).flatten, e.hash = entryHash conf e.key
    intro x hx
    rcases mem_flatten_set hx with hx2 | hx2
    · exact hhash x (mem_getD_flatten (hsub x hx2))
    · exact hhash x hx2
  · show ∀ j2 < (t1.buckets.set j c2).length, ∀ x ∈ (t1.buckets.set j c2).getD j2 [],
      x.hash &&& (t1.capacity - 1) = j2
    intro j2 hj2 x hx
    rw [List.length_set] at hj2
    by_cases hjj : j = j2
    · subst hjj
      rw [getD_set_self hj] at hx
      exact hplace j hj x (hsub x hx)
    · rw [getD_set_ne hjj] at hx
      exact hplace j2 hj2 x hx
  · show t1.size - 1 = sumLens (t1.buckets.set j c2)
    have h2 := sumLens_set hj c2
    have hc : t1.size = sumLens t1.buckets := hcount
    omega

/-! ### Behavior of add_core -/

theorem add_core_true (conf : HTConf K) (t1 : HT K V) (key : Option K) (val : V) :
    (add_core conf t1 key val).1 = true := by
  cases key with
  | none =>
    show (add_null_key t1 val).1 = true
    cases hr : replace_null_in_chain val (t1.buckets.getD 0 []) <;>
      simp only [add_null_key, hr]
  | some k =>
    cases hr : replace_in_chain conf.key_cmp (some k) val
        (t1.buckets.getD (conf.hash (some k) &&& (t1.capacity - 1)) []) <;>
      simp only [add_core, hr]

theorem add_core_capacity (conf : HTConf K) (t1 : HT K V) (key : Option K) (val : V) :
    (add_core conf t1 key val).2.capacity = t1.capacity ∧
    (add_core conf t1 key val).2.threshold = t1.threshold := by
  cases key with
  | none =>
    show (add_null_key t1 val).2.capacity = t1.capacity ∧
      (add_null_key t1 val).2.threshold = t1.threshold
    cases hr : replace_null_in_chain val (t1.buckets.getD 0 []) <;>
      simp only [add_null_key, hr] <;> exact ⟨trivial, trivial⟩
  | some k =>
    cases hr : replace_in_chain conf.key_cmp (some k) val
        (t1.buckets.getD (conf.hash (some k) &&& (t1.capacity - 1)) []) <;>
      simp only [add_core, hr] <;> exact ⟨trivial, trivial⟩

theorem add_core_replace (conf : HTConf K) {t1 : HT K V} (hinv : Invariant conf t1)
    {key : Option K} (val : V)
    (hcompat : ∀ a b, conf.key_cmp a b = true → entryHash conf a = entryHash conf b)
    (hex : ∃ e ∈ allEntries t1, MatchAdd conf key e) :
    (add_core conf t1 key val).2.size = t1.size ∧
    totalEntries (add_core conf t1 key val).2 = totalEntries t1 ∧
    hashtable_get conf (add_core conf t1 key val).2 key = some val ∧
    Invariant conf (add_core conf t1 key val).2 := by
  cases key with
  | none =>
    rcases hex with ⟨em, hem, hma⟩
    have hkey : em.key = none := hma
    have hhash0 : em.hash = 0 := by
      have h := hinv.2.2.1 em hem
      rw [hkey] at h
      exact h
    have hbuck := mem_bucket_of_mem_allEntries hinv hem
    rw [hhash0, Nat.zero_and] at hbuck
    have hex0 : ∃ e ∈ t1.buckets.getD 0 [], e.key = none := ⟨em, hbuck.1, hkey⟩
    obtain ⟨c2, hc2⟩ := replace_null_in_chain_some_of_mem val hex0
    obtain ⟨hfind, hlen2, hsub, -⟩ := replace_null_in_chain_spec hc2
    have hres : add_core conf t1 none val =
        (true, { t1 with buckets := t1.buckets.set 0 c2 }) := by
      show add_null_key t1 val = _
      simp only [add_null_key, hc2]
    rw [hres]
    refine ⟨rfl, ?_, ?_, ?_⟩
    · show sumLens (t1.buckets.set 0 c2) = sumLens t1.buckets
      have h2 := sumLens_set hbuck.2 c2
      omega
    · show find_null_in_chain ((t1.buckets.set 0 c2).getD 0 []) = some val
      rw [getD_set_self hbuck.2]
      exact hfind
    · exact Invariant_set_chain conf hinv hbuck.2 hsub hlen2
  | some k =>
    rcases hex with ⟨em, hem, hma⟩
    have hcmp : conf.key_cmp em.key (some k) = true := hma
    have hhashk : em.hash = conf.hash (some k) := by
      have h1 := hinv.2.2.1 em hem
      have h2 := hcompat em.key (some k) hcmp
      rw [h1, h2]
      rfl
    have hbuck := mem_bucket_of_mem_allEntries hinv hem
    rw [hhashk] at hbuck
    have hex0 : ∃ e ∈ t1.buckets.getD (conf.hash (some k) &&& (t1.capacity - 1)) [],
        conf.key_cmp e.key (some k) = true := ⟨em, hbuck.1, hcmp⟩
    obtain ⟨c2, hc2⟩ := replace_in_chain_some_of_mem val hex0
    obtain ⟨hfind, hlen2, hsub, -⟩ := replace_in_chain_spec hc2
    have hres : add_core conf t1 (some k) val =
        (true, { t1 with
          buckets := t1.buckets.set (conf.hash (some k) &&& (t1.capacity - 1)) c2 }) := by
      simp only [add_core, hc2]
    rw [hres]
    refine ⟨rfl, ?_, ?_, ?_⟩
    · show sumLens (t1.buckets.set (conf.hash (some k) &&& (t1.capacity - 1)) c2)
        = sumLens t1.buckets
      have h2 := sumLens_set hbuck.2 c2
      omega
    · show find_in_chain conf.key_cmp (some k)
        ((t1.buckets.set (conf.hash (some k) &&& (t1.capacity - 1)) c2).getD
          (conf.hash (some k) &&& (t1.capacity - 1)) []) = some val
      rw [getD_set_self hbuck.2]
      exact hfind
    · exact Invariant_set_chain conf hinv hbuck.2 hsub hlen2

theorem add_core_fresh (conf : HTConf K) {t1 : HT K V} (hinv : Invariant conf t1)
    {key : Option K} (val : V)
    (hno : ∀ e ∈ allEntries t1, ¬ MatchAdd conf key e) :
    (add_core conf t1 key val).2.size = t1.size + 1 ∧
    (allEntries (add_core conf t1 key val).2).Perm
      (⟨key, val, entryHash conf key⟩ :: allEntries t1) ∧
    Invariant conf (add_core conf t1 key val).2 := by
  cases key with
  | none =>
    have h0len : 0 < t1.buckets.length := by
      rw [hinv.1]
      exact hinv.2.1
    have hforall : ∀ e ∈ t1.buckets.getD 0 [], e.key ≠ none := by
      intro e he hk
      exact hno e (mem_getD_flatten he) hk
    have hc2 := replace_null_in_chain_none_of_forall val hforall
    have hres : add_core conf t1 none val =
        (true, { t1 with
          buckets := t1.buckets.set 0 (⟨none, val, 0⟩ :: t1.buckets.getD 0 [])
          size := t1.size + 1 }) := by
      show add_null_key t1 val = _
      simp only [add_null_key, hc2]
    rw [hres]
    refine ⟨rfl, ?_, ?_⟩
    · show ((t1.buckets.set 0
          ((⟨none, val, 0⟩ : TableEntry K V) :: t1.buckets.getD 0 [])).flatten).Perm
        ((⟨none, val, 0⟩ : TableEntry K V) :: t1.buckets.flatten)
      exact flatten_set_cons_perm h0len _
    · exact Invariant_prepend conf hinv h0len rfl (Nat.zero_and _)
  | some k =>
    have hilt : conf.hash (some k) &&& (t1.capacity - 1) < t1.buckets.length := by
      rw [hinv.1]
      have hpos := hinv.2.1
      exact Nat.lt_of_le_of_lt Nat.and_le_right (by omega)
    have hforall : ∀ e ∈ t1.buckets.getD (conf.hash (some k) &&& (t1.capacity - 1)) [],
        conf.key_cmp e.key (some k) = false := by
      intro e he
      have h2 : ¬ conf.key_cmp e.key (some k) = true := hno e (mem_getD_flatten he)
      simpa using h2
    have hc2 := replace_in_chain_none_of_forall val hforall
    have hres : add_core conf t1 (some k) val =
        (true, { t1 with
          buckets := t1.buckets.set (conf.hash (some k) &&& (t1.capacity - 1))
            (⟨some k, val, conf.hash (some k)⟩ ::
              t1.buckets.getD (conf.hash (some k) &&& (t1.capacity - 1)) [])
          size := t1.size + 1 }) := by
      simp only [add_core, hc2]
    rw [hres]
    refine ⟨rfl, ?_, ?_⟩
    · show ((t1.buckets.set (conf.hash (some k) &&& (t1.capacity - 1))
          ((⟨some k, val, conf.hash (some k)⟩ : TableEntry K V) ::
            t1.buckets.getD (conf.hash (some k) &&& (t1.capacity - 1)) [])).flatten).Perm
        ((⟨some k, val, conf.hash (some k)⟩ : TableEntry K V) :: t1.buckets.flatten)
      exact flatten_set_cons_perm hilt _
    · exact Invariant_prepend conf hinv hilt rfl rfl

theorem add_core_invariant (conf : HTConf K) {t1 : HT K V} (hinv : Invariant conf t1)
    (key : Option K) (val : V) :
    Invariant conf (add_core conf t1 key val).2 := by
  cases key with
  | none =>
    have h0len : 0 < t1.buckets.length := by
      rw [hinv.1]
      exact hinv.2.1
    show Invariant conf (add_null_key t1 val).2
    cases hr : replace_null_in_chain val (t1.buckets.getD 0 []) with
    | some c2 =>
      have hres : add_null_key t1 val = (true, { t1 with buckets := t1.buckets.set 0 c2 }) := by
        simp only [add_null_key, hr]
      rw [hres]
      obtain ⟨-, hlen2, hsub, -⟩ := replace_null_in_chain_spec hr
      exact Invariant_set_chain conf hinv h0len hsub hlen2
    | none =>
      have hres : add_null_key t1 val =
          (true, { t1 with
            buckets := t1.buckets.set 0 (⟨none, val, 0⟩ :: t1.buckets.getD 0 [])
            size := t1.size + 1 }) := by
        simp only [add_null_key, hr]
      rw [hres]
      exact Invariant_prepend conf hinv h0len rfl (Nat.zero_and _)
  | some k =>
    have hilt : conf.hash (some k) &&& (t1.capacity - 1) < t1.buckets.length := by
      rw [hinv.1]
      have hpos := hinv.2.1
      exact Nat.lt_of_le_of_lt Nat.and_le_right (by omega)
    cases hr : replace_in_chain conf.key_cmp (some k) val
        (t1.buckets.getD (conf.hash (some k) &&& (t1.capacity - 1)) []) with
    | some c2 =>
      have hres : add_core conf t1 (some k) val =
          (true, { t1 with
            buckets := t1.buckets.set (conf.hash (some k) &&& (t1.capacity - 1)) c2 }) := by
        simp only [add_core, hr]
      rw [hres]
      obtain ⟨-, hlen2, hsub, -⟩ := replace_in_chain_spec hr
      exact Invariant_set_chain conf hinv hilt hsub hlen2
    | none =>
      have hres : add_core conf t1 (some k) val =
          (true, { t1 with
            buckets := t1.buckets.set (conf.hash (some k) &&& (t1.capacity - 1))
              (⟨some k, val, conf.hash (some k)⟩ ::
                t1.buckets.getD (conf.hash (some k) &&& (t1.capacity - 1)) [])
            size := t1.size + 1 }) := by
        simp only [add_core, hr]
      rw [hres]
      exact Invariant_prepend conf hinv hilt rfl rfl

/-! ### Invariant preservation by the public operations -/

theorem hashtable_add_invariant (conf : HTConf K) {t : HT K V} (hinv : Invariant conf t)
    (key : Option K) (val : V) :
    Invariant conf (hashtable_add conf t key val).2 := by
  rw [hashtable_add_eq]
  exact add_core_invariant conf (preResize_spec conf hinv).1 key val

theorem hashtable_remove_invariant (conf : HTConf K) {t : HT K V}
    (hinv : Invariant conf t) (key : Option K) :
    Invariant conf (hashtable_remove conf t key).2 := by
  cases key with
  | none =>
    show Invariant conf (remove_null_key t).2
    cases hr : remove_null_from_chain (t.buckets.getD 0 []) with
    | none =>
      have hres : remove_null_key t = (none, t) := by
        simp only [remove_null_key, hr]
      rw [hres]
      exact hinv
    | some p =>
      rcases p with ⟨v, c2⟩
      have h0len : 0 < t.buckets.length := by
        rw [hinv.1]
        exact hinv.2.1
      have hres : remove_null_key t =
          (some v, { t with buckets := t.buckets.set 0 c2, size := t.size - 1 }) := by
        simp only [remove_null_key, hr]
      rw [hres]
      obtain ⟨hlen2, hsub⟩ := remove_null_from_chain_spec hr
      exact Invariant_unlink conf hinv h0len hsub hlen2
  | some k =>
    have hilt : conf.hash (some k) &&& (t.capacity - 1) < t.buckets.length := by
      rw [hinv.1]
      have hpos := hinv.2.1
      exact Nat.lt_of_le_of_lt Nat.and_le_right (by omega)
    cases hr : remove_from_chain conf.key_cmp (some k)
        (t.buckets.getD (conf.hash (some k) &&& (t.capacity - 1)) []) with
    | none =>
      have hres : hashtable_remove conf t (some k) = (none, t) := by
        simp only [hashtable_remove, get_table_index, hr]
      rw [hres]
      exact hinv
    | some p =>
      rcases p with ⟨v, c2⟩
      have hres : hashtable_remove conf t (some k) =
          (some v, { t with
            buckets := t.buckets.set (conf.hash (some k) &&& (t.capacity - 1)) c2
            size := t.size - 1 }) := by
        simp only [hashtable_remove, get_table_index, hr]
      rw [hres]
      obtain ⟨hlen2, hsub⟩ := remove_from_chain_spec hr
      exact Invariant_unlink conf hinv hilt hsub hlen2

theorem hashtable_remove_all_invariant (conf : HTConf K) {t : HT K V}
    (hinv : Invariant conf t) :
    Invariant conf (hashtable_remove_all t) := by
  obtain ⟨hlen, hpos, hhash, hplace, hcount⟩ := hinv
  refine ⟨?_, hpos, ?_, ?_, ?_⟩
  · show (t.buckets.map fun _ => []).length = t.capacity
    rw [List.length_map]
    exact hlen
  · show ∀ e ∈ (t.buckets.map fun _ => ([] : List (TableEntry K V))).flatten,
      e.hash = entryHash conf e.key
    intro x hx
    rcases mem_flatten_getD hx with ⟨j, hj, hje⟩
    rw [getD_map_nil] at hje
    cases hje
  · show ∀ j < (t.buckets.map fun _ => ([] : List (TableEntry K V))).length,
      ∀ x ∈ (t.buckets.map fun _ => ([] : List (TableEntry K V))).getD j [],
      x.hash &&& (t.capacity - 1) = j
    intro j hj x hx
    rw [getD_map_nil] at hx
    cases hx
  · show t.size - totalEntries t = sumLens (t.buckets.map fun _ => [])
    rw [sumLens_map_nil]
    have hc : t.size = sumLens t.buckets := hcount
    have ht : totalEntries t = sumLens t.buckets := rfl
    omega

theorem round_pow_two_pos (n : Nat) : 0 < round_pow_two n := by
  rw [round_pow_two]
  by_cases h1 : MAX_POW_TWO ≤ n
  · rw [if_pos h1]
    exact Nat.pos_pow_of_pos 63 (by omega)
  · rw [if_neg h1]
    by_cases h2 : n = 0
    · rw [if_pos h2]
      omega
    · rw [if_neg h2]
      omega

theorem hashtable_new_conf_invariant (conf : HTConf K) (n : Nat) :
    Invariant conf (hashtable_new_conf conf n : HT K V) := by
  refine ⟨?_, ?_, ?_, ?_, ?_⟩
  · show (List.replicate (round_pow_two n) ([] : List (TableEntry K V))).length
      = round_pow_two n
    simp
  · show 0 < round_pow_two n
    exact round_pow_two_pos n
  · show ∀ e ∈ (List.replicate (round_pow_two n) ([] : List (TableEntry K V))).flatten,
      e.hash = entryHash conf e.key
    rw [flatten_replicate_nil]
    intro e he
    cases he
  · show ∀ j < (List.replicate (round_pow_two n) ([] : List (TableEntry K V))).length,
      ∀ x ∈ (List.replicate (round_pow_two n) ([] : List (TableEntry K V))).getD j [],
      x.hash &&& (round_pow_two n - 1) = j
    intro j hj x hx
    rw [getD_replicate_nil] at hx
    cases hx
  · show 0 = sumLens (List.replicate (round_pow_two n) [])
    rw [sumLens_replicate_nil]

theorem Invariant_reachable {conf : HTConf K} {t : HT K V} (h : Reachable conf t) :
    Invariant conf t := by
  induction h with
  | new n => exact hashtable_new_conf_invariant conf n
  | add key val _ ih => exact hashtable_add_invariant conf ih key val
  | remove key _ ih => exact hashtable_remove_invariant conf ih key
  | remove_all _ ih => exact hashtable_remove_all_invariant conf ih

/-! ### Locating the inserted mapping after an insert -/

theorem add_core_match_exists (conf : HTConf K) {t1 : HT K V} (hinv : Invariant conf t1)
    (key : Option K) (val : V) (hrefl : conf.key_cmp key key = true) :
    ∃ e ∈ allEntries (add_core conf t1 key val).2, MatchAdd conf key e := by
  cases key with
  | none =>
    have h0len : 0 < t1.buckets.length := by
      rw [hinv.1]
      exact hinv.2.1
    show ∃ e ∈ allEntries (add_null_key t1 val).2, MatchAdd conf none e
    cases hr : replace_null_in_chain val (t1.buckets.getD 0 []) with
    | some c2 =>
      have hres : add_null_key t1 val = (true, { t1 with buckets := t1.buckets.set 0 c2 }) := by
        simp only [add_null_key, hr]
      rw [hres]
      obtain ⟨-, -, -, e2, he2, hk2, -⟩ := replace_null_in_chain_spec hr
      refine ⟨e2, ?_, hk2⟩
      show e2 ∈ (t1.buckets.set 0 c2).flatten
      exact mem_getD_flatten (j := 0) (by rw [getD_set_self h0len]; exact he2)
    | none =>
      have hres : add_null_key t1 val =
          (true, { t1 with
            buckets := t1.buckets.set 0 (⟨none, val, 0⟩ :: t1.buckets.getD 0 [])
            size := t1.size + 1 }) := by
        simp only [add_null_key, hr]
      rw [hres]
      refine ⟨⟨none, val, 0⟩, ?_, rfl⟩
      show (⟨none, val, 0⟩ : TableEntry K V)
        ∈ (t1.buckets.set 0 (⟨none, val, 0⟩ :: t1.buckets.getD 0 [])).flatten
      exact mem_getD_flatten (j := 0)
        (by rw [getD_set_self h0len]; exact List.mem_cons_self _ _)
  | some k =>
    have hilt : conf.hash (some k) &&& (t1.capacity - 1) < t1.buckets.length := by
      rw [hinv.1]
      have hpos := hinv.2.1
      exact Nat.lt_of_le_of_lt Nat.and_le_right (by omega)
    cases hr : replace_in_chain conf.key_cmp (some k) val
        (t1.buckets.getD (conf.hash (some k) &&& (t1.capacity - 1)) []) with
    | some c2 =>
      have hres : add_core conf t1 (some k) val =
          (true, { t1 with
            buckets := t1.buckets.set (conf.hash (some k) &&& (t1.capacity - 1)) c2 }) := by
        simp only [add_core, hr]
      rw [hres]
      obtain ⟨-, -, -, e2, he2, hk2, -⟩ := replace_in_chain_spec hr
      refine ⟨e2, ?_, hk2⟩
      show e2 ∈ (t1.buckets.set (conf.hash (some k) &&& (t1.capacity - 1)) c2).flatten
      exact mem_getD_flatten (j := conf.hash (some k) &&& (t1.capacity - 1))
        (by rw [getD_set_self hilt]; exact he2)
    | none =>
      have hres : add_core conf t1 (some k) val =
          (true, { t1 with
            buckets := t1.buckets.set (conf.hash (some k) &&& (t1.capacity - 1))
              (⟨some k, val, conf.hash (some k)⟩ ::
                t1.buckets.getD (conf.hash (some k) &&& (t1.capacity - 1)) [])
            size := t1.size + 1 }) := by
        simp only [add_core, hr]
      rw [hres]
      refine ⟨⟨some k, val, conf.hash (some k)⟩, ?_, hrefl⟩
      show (⟨some k, val, conf.hash (some k)⟩ : TableEntry K V)
        ∈ (t1.buckets.set (conf.hash (some k) &&& (t1.capacity - 1))
            (⟨some k, val, conf.hash (some k)⟩ ::
              t1.buckets.getD (conf.hash (some k) &&& (t1.capacity - 1)) [])).flatten
      exact mem_getD_flatten (j := conf.hash (some k) &&& (t1.capacity - 1))
        (by rw [getD_set_self hilt]; exact List.mem_cons_self _ _)

theorem hashtable_add_match_exists (conf : HTConf K) {t : HT K V}
    (hinv : Invariant conf t) (key : Option K) (val : V)
    (hrefl : conf.key_cmp key key = true) :
    ∃ e ∈ allEntries (hashtable_add conf t key val).2, MatchAdd conf key e := by
  rw [hashtable_add_eq]
  exact add_core_match_exists conf (preResize_spec conf hinv).1 key val hrefl

/-! ### Claim theorems: C1, C8, C9, C10 -/

/-- C1: for every well-formed table whose comparator is reflexive at the key
and compatible with the configured hash, insert(k,v1) followed by
insert(k,v2) succeeds, leaves the size and the entry count unchanged (the
existing entry's value is replaced in place, no new entry is created), and a
subsequent lookup(k) returns v2. -/
theorem insert_twice_replaces (conf : HTConf K) (t : HT K V) (key : Option K)
    (v1 v2 : V) (hinv : Invariant conf t)
    (hcompat : ∀ a b, conf.key_cmp a b = true → entryHash conf a = entryHash conf b)
    (hrefl : conf.key_cmp key key = true) :
    (hashtable_add conf t key v1).1 = true ∧
    (hashtable_add conf (hashtable_add conf t key v1).2 key v2).1 = true ∧
    (hashtable_add conf (hashtable_add conf t key v1).2 key v2).2.size
      = (hashtable_add conf t key v1).2.size ∧
    totalEntries (hashtable_add conf (hashtable_add conf t key v1).2 key v2).2
      = totalEntries (hashtable_add conf t key v1).2 ∧
    hashtable_get conf (hashtable_add conf (hashtable_add conf t key v1).2 key v2).2 key
      = some v2 := by
  have hinv1 : Invariant conf (hashtable_add conf t key v1).2 :=
    hashtable_add_invariant conf hinv key v1
  have hex1 := hashtable_add_match_exists conf hinv key v1 hrefl
  obtain ⟨hinvP, hpermP, hsizeP⟩ := preResize_spec conf hinv1
  have hexP : ∃ e ∈ allEntries (if (hashtable_add conf t key v1).2.threshold
      ≤ (hashtable_add conf t key v1).2.size then
        resize conf (hashtable_add conf t key v1).2
          ((hashtable_add conf t key v1).2.capacity * 2)
      else (hashtable_add conf t key v1).2), MatchAdd conf key e := by
    rcases hex1 with ⟨e, he, hm⟩
    exact ⟨e, hpermP.mem_iff.2 he, hm⟩
  obtain ⟨hsz, htot, hget, -⟩ := add_core_replace conf hinvP v2 hcompat hexP
  have htot1 : totalEntries (if (hashtable_add conf t key v1).2.threshold
      ≤ (hashtable_add conf t key v1).2.size then
        resize conf (hashtable_add conf t key v1).2
          ((hashtable_add conf t key v1).2.capacity * 2)
      else (hashtable_add conf t key v1).2)
      = totalEntries (hashtable_add conf t key v1).2 := by
    rw [totalEntries_eq_length_allEntries, totalEntries_eq_length_allEntries]
    exact hpermP.length_eq
  refine ⟨?_, ?_, ?_, ?_, ?_⟩
  · rw [hashtable_add_eq]
    exact add_core_true conf _ key v1
  · rw [hashtable_add_eq]
    exact add_core_true conf _ key v2
  · rw [hashtable_add_eq (t := (hashtable_add conf t key v1).2)]
    rw [hsz, hsizeP]
  · rw [hashtable_add_eq (t := (hashtable_add conf t key v1).2)]
    rw [htot, htot1]
  · rw [hashtable_add_eq (t := (hashtable_add conf t key v1).2)]
    exact hget

/-- C1 witness: a concrete run on a small table over `Nat` keys. -/
theorem insert_twice_replaces_witness :
    (hashtable_add natConf (hashtable_new_conf natConf 2) (some 5) 7).1 = true ∧
    (hashtable_add natConf
      (hashtable_add natConf (hashtable_new_conf natConf 2) (some 5) 7).2 (some 5) 9).1
      = true ∧
    (hashtable_add natConf
      (hashtable_add natConf (hashtable_new_conf natConf 2) (some 5) 7).2 (some 5) 9).2.size
      = (hashtable_add natConf (hashtable_new_conf natConf 2) (some 5) 7).2.size ∧
    totalEntries (hashtable_add natConf
      (hashtable_add natConf (hashtable_new_conf natConf 2) (some 5) 7).2 (some 5) 9).2
      = totalEntries (hashtable_add natConf (hashtable_new_conf natConf 2) (some 5) 7).2 ∧
    hashtable_get natConf (hashtable_add natConf
      (hashtable_add natConf (hashtable_new_conf natConf 2) (some 5) 7).2 (some 5) 9).2
      (some 5) = some 9 :=
  insert_twice_replaces natConf (hashtable_new_conf natConf 2) (some 5) 7 9
    (by decide)
    (fun a b hab => by
      have hab2 : a = b := by simpa [natConf] using hab
      rw [hab2])
    (by decide)

/-- C8: removing a key that matches no entry of the table returns the absent
result and leaves the table — size, every chain, every mapping — exactly as
it was. -/
theorem remove_absent_noop (conf : HTConf K) (t : HT K V) (key : Option K)
    (habs : ∀ e ∈ allEntries t, ¬ RemoveMatch conf key e) :
    hashtable_remove conf t key = (none, t) := by
  cases key with
  | none =>
    have hforall : ∀ e ∈ t.buckets.getD 0 [], e.key ≠ none := by
      intro e he hk
      exact habs e (mem_getD_flatten he) hk
    have hr := remove_null_from_chain_none_of_forall hforall
    show remove_null_key t = (none, t)
    simp only [remove_null_key, hr]
  | some k =>
    have hforall : ∀ e ∈ t.buckets.getD (get_table_index conf t (some k)) [],
        conf.key_cmp (some k) e.key = false := by
      intro e he
      have h2 : ¬ conf.key_cmp (some k) e.key = true := habs e (mem_getD_flatten he)
      simpa using h2
    have hr := remove_from_chain_none_of_forall hforall
    simp only [hashtable_remove, hr]

/-- C8 witness: removing the absent key 2 from a table holding only key 1. -/
theorem remove_absent_noop_witness :
    hashtable_remove natConf oneEntryTable (some 2) = (none, oneEntryTable) :=
  remove_absent_noop natConf oneEntryTable (some 2) (by decide)

/-- C9: after removeAll, size is 0, every bucket chain head is empty,
containsKey returns false for every key, and capacity and threshold are
unchanged. -/
theorem remove_all_resets (conf : HTConf K) (t : HT K V)
    (hcount : t.size = totalEntries t) :
    (hashtable_remove_all t).size = 0 ∧
    (∀ j, (hashtable_remove_all t).buckets.getD j [] = []) ∧
    (∀ key, hashtable_contains_key conf (hashtable_remove_all t) key = false) ∧
    (hashtable_remove_all t).capacity = t.capacity ∧
    (hashtable_remove_all t).threshold = t.threshold := by
  refine ⟨?_, ?_, ?_, rfl, rfl⟩
  · show t.size - totalEntries t = 0
    omega
  · intro j
    show (t.buckets.map fun _ => []).getD j [] = []
    exact getD_map_nil t.buckets j
  · intro key
    show contains_in_chain conf.key_cmp key
      ((t.buckets.map fun _ => []).getD
        (get_table_index conf (hashtable_remove_all t) key) []) = false
    rw [getD_map_nil]
    rfl

/-- C9 witness: a concrete removeAll run. -/
theorem remove_all_resets_witness :
    (hashtable_remove_all oneEntryTable).size = 0 ∧
    hashtable_contains_key natConf (hashtable_remove_all oneEntryTable) (some 1) = false ∧
    (hashtable_remove_all oneEntryTable).capacity = oneEntryTable.capacity ∧
    (hashtable_remove_all oneEntryTable).threshold = oneEntryTable.threshold :=
  have h := remove_all_resets natConf oneEntryTable (by decide)
  ⟨h.1, h.2.2.1 (some 1), h.2.2.2.1, h.2.2.2.2⟩

/-- C10: in every table reachable from creation by any sequence of insert,
remove and removeAll operations (including the resizes insert triggers), the
size field equals the total number of entries across all bucket chains. -/
theorem size_counts_entries {conf : HTConf K} {t : HT K V} (h : Reachable conf t) :
    t.size = totalEntries t :=
  (Invariant_reachable h).2.2.2.2

/-- C10 witness: a concrete reachable table. -/
theorem size_counts_entries_witness :
    oneEntryTable.size = totalEntries oneEntryTable :=
  size_counts_entries (Reachable.add (some 1) 10 (Reachable.new 4))

/-! ### Claim theorems: C3, C6, C7 (divergences evaluated at their failing
inputs) -/

/-- C3: the null-key scenario at its failing input.  `insert(NULL, 42)`,
`lookup(NULL)`, `remove(NULL)` and the post-remove lookup behave as the spec
says, but `hashtable_contains_key` does not route the NULL key: it feeds
NULL to the configured hash function (here a total one sending NULL to
digest 1, as a pointer hash may) and scans bucket `1 &&& (capacity-1) = 1`
instead of bucket 0, so it returns `false` for a present NULL mapping.  With
the default string hash the same call dereferences NULL — undefined
behavior. -/
theorem contains_key_null_divergence :
    hashtable_get nullConf nullTable none = some 42 ∧
    (hashtable_remove nullConf nullTable none).1 = some 42 ∧
    hashtable_get nullConf (hashtable_remove nullConf nullTable none).2 none = none ∧
    hashtable_contains_key nullConf nullTable none = false := by
  decide

/-- C6: initializing an iterator over an empty table (size 0) does not reset
`next_entry`; when the caller's struct holds a stale non-NULL value there,
`hashtable_iter_has_next` returns `true`, not `false`. -/
theorem iter_init_empty_divergence :
    emptyTable16.size = 0 ∧
    hashtable_iter_has_next (hashtable_iter_init staleIter emptyTable16) = true := by
  decide

/-- C7: `hashtable_new_conf` returns NULL when the table-struct `calloc`
fails, but when only the bucket-array `calloc` fails it still returns a
(non-NULL) table whose `buckets` pointer is NULL. -/
theorem new_conf_unchecked_buckets :
    hashtable_new_conf_alloc (V := Nat) natConf 16 false true = none ∧
    hashtable_new_conf_alloc (V := Nat) natConf 16 true false =
      some { capacity := 16, size := 0, threshold := 12, buckets := none } := by
  decide

/-! ### Claim C4: the string hash -/

theorem string_hash_go_cons_ne (c : Nat) (hc : c ≠ 0) (rest : List Nat) (h : Nat) :
    string_hash_go (c :: rest) h
      = string_hash_go rest (string_hash_step h (rest.headD 0)) := by
  show (if c = 0 then h else string_hash_go rest (string_hash_step h (rest.headD 0))) = _
  rw [if_neg hc]

theorem string_hash_go_cons (cs : List Nat) (hcs : ∀ b ∈ cs, b ≠ 0) :
    ∀ c, c ≠ 0 → ∀ h,
      string_hash_go (c :: (cs ++ [0])) h = (cs ++ [0]).foldl string_hash_step h := by
  induction cs with
  | nil =>
    intro c hc h
    show string_hash_go (c :: [0]) h = List.foldl string_hash_step h [0]
    rw [string_hash_go_cons_ne c hc, List.headD_cons]
    rfl
  | cons b bs ih =>
    intro c hc h
    have hb : b ≠ 0 := hcs b (List.mem_cons_self b bs)
    have hbs : ∀ x ∈ bs, x ≠ 0 := fun x hx => hcs x (List.mem_cons_of_mem _ hx)
    rw [List.cons_append, string_hash_go_cons_ne c hc, List.headD_cons, List.foldl_cons]
    exact ih hbs b hb (string_hash_step h b)

/-- C4 counterexample: on the one-character string "a" the hash the code
computes differs from the spec's "fold `hash*33 XOR byte` over all of the
key's bytes": the loop body reads `*str` after `str` has been incremented,
so the first byte is never mixed in (and the NUL terminator is). -/
theorem hash_string_counterexample :
    hashtable_hash_string [97] (-1) 0 ≠ spec_string_fold [97] := by
  decide

/-- C4 amended: for a NUL-free byte string, the hash is 5381 for the empty
string and otherwise equals the spec's fold applied to the bytes from the
second one onward followed by the NUL terminator; the seed argument never
enters the computation. -/
theorem hash_string_amended (str : List Nat) (len : Int) (seed seed2 : Nat)
    (hnz : ∀ b ∈ str, b ≠ 0) :
    hashtable_hash_string str len seed = hashtable_hash_string str len seed2 ∧
    hashtable_hash_string str len seed =
      (match str with
       | [] => 5381
       | _ :: rest => spec_string_fold (rest ++ [0])) := by
  refine ⟨rfl, ?_⟩
  cases str with
  | nil => rfl
  | cons b bs =>
    have hb : b ≠ 0 := hnz b (List.mem_cons_self b bs)
    have hbs : ∀ x ∈ bs, x ≠ 0 := fun x hx => hnz x (List.mem_cons_of_mem _ hx)
    show string_hash_go ((b :: bs) ++ [0]) 5381 = spec_string_fold (bs ++ [0])
    rw [List.cons_append]
    exact string_hash_go_cons bs hbs b hb 5381

/-- C4 witness: the amended characterization evaluated on the string "ab"
with two different seeds. -/
theorem hash_string_amended_witness :
    hashtable_hash_string [97, 98] (-1) 0 = hashtable_hash_string [97, 98] (-1) 1 ∧
    hashtable_hash_string [97, 98] (-1) 0 = spec_string_fold ([98] ++ [0]) :=
  hash_string_amended [97, 98] (-1) 0 1 (by decide)

/-! ### Claim C5: round_pow_two and the bucket-index computation -/

theorem testBit_smearSteps (k : Nat) (m : Nat) :
    ∀ j, (smearSteps k m).testBit j = true ↔ ∃ d < 2 ^ k, m.testBit (j + d) = true := by
  induction k with
  | zero =>
    intro j
    constructor
    · intro h
      exact ⟨0, by omega, by simpa using h⟩
    · rintro ⟨d, hd, h⟩
      have hd0 : d = 0 := by omega
      subst hd0
      simpa using h
  | succ k ih =>
    intro j
    show ((smearSteps k m ||| smearSteps k m >>> 2 ^ k).testBit j = true) ↔ _
    rw [Nat.testBit_or, Nat.testBit_shiftRight, Bool.or_eq_true]
    have hpow : 2 ^ (k + 1) = 2 ^ k * 2 := Nat.pow_succ 2 k
    constructor
    · rintro (h | h)
      · rcases (ih j).1 h with ⟨d, hd, hm⟩
        exact ⟨d, by omega, hm⟩
      · rcases (ih (2 ^ k + j)).1 h with ⟨d, hd, hm⟩
        refine ⟨2 ^ k + d, by omega, ?_⟩
        have harr : j + (2 ^ k + d) = 2 ^ k + j + d := by omega
        rw [harr]
        exact hm
    · rintro ⟨d, hd, hm⟩
      by_cases hdk : d < 2 ^ k
      · exact Or.inl ((ih j).2 ⟨d, hdk, hm⟩)
      · refine Or.inr ((ih (2 ^ k + j)).2 ⟨d - 2 ^ k, by omega, ?_⟩)
        have harr : 2 ^ k + j + (d - 2 ^ k) = j + d := by omega
        rw [harr]
        exact hm

theorem testBit_eq_false_of_lt {m i : Nat} (h : m < 2 ^ i) : m.testBit i = false := by
  rw [Nat.testBit_to_div_mod, Nat.div_eq_of_lt h]
  rfl

theorem testBit_size_sub_one {m : Nat} (hm : 0 < m) : m.testBit (m.size - 1) = true := by
  have hszpos : 0 < m.size := Nat.size_pos.2 hm
  have h1 : 2 ^ (m.size - 1) ≤ m := Nat.lt_size.1 (by omega)
  have h2 : m < 2 ^ m.size := Nat.lt_size_self m
  have hp : 0 < 2 ^ (m.size - 1) := Nat.pos_pow_of_pos _ (by omega)
  have h3 : m / 2 ^ (m.size - 1) = 1 := by
    have hlo : 1 ≤ m / 2 ^ (m.size - 1) := (Nat.le_div_iff_mul_le hp).2 (by omega)
    have hhi : m / 2 ^ (m.size - 1) < 2 := by
      rw [Nat.div_lt_iff_lt_mul hp]
      have hps : 2 ^ m.size = 2 ^ (m.size - 1) * 2 := by
        rw [← Nat.pow_succ]
        congr 1
        omega
      omega
    omega
  rw [Nat.testBit_to_div_mod, h3]
  rfl

theorem smearSteps_five {m : Nat} (h1 : 1 ≤ m) (h2 : m < 2 ^ 32) :
    smearSteps 5 m = 2 ^ m.size - 1 := by
  have hsz : m.size ≤ 32 := Nat.size_le.2 h2
  have hszpos : 0 < m.size := Nat.size_pos.2 (by omega)
  apply Nat.eq_of_testBit_eq
  intro i
  rw [Nat.testBit_two_pow_sub_one]
  by_cases hi : i < m.size
  · have htop : m.testBit (m.size - 1) = true := testBit_size_sub_one (by omega)
    have hset : (smearSteps 5 m).testBit i = true := by
      refine (testBit_smearSteps 5 m i).2 ⟨m.size - 1 - i, by omega, ?_⟩
      have harr : i + (m.size - 1 - i) = m.size - 1 := by omega
      rw [harr]
      exact htop
    rw [hset]
    simp [hi]
  · have hclear : ¬ (smearSteps 5 m).testBit i = true := by
      intro hcon
      rcases (testBit_smearSteps 5 m i).1 hcon with ⟨d, hd, hm⟩
      have hup : m < 2 ^ (i + d) :=
        Nat.lt_of_lt_of_le (Nat.lt_size_self m)
          (Nat.pow_le_pow_right (by omega) (by omega))
      rw [testBit_eq_false_of_lt hup] at hm
      cases hm
    rw [Bool.not_eq_true] at hclear
    rw [hclear]
    simp [hi]

theorem round_pow_two_spec (n : Nat) (h2 : 2 ≤ n) (h32 : n ≤ 2 ^ 32) :
    round_pow_two n = 2 ^ (n - 1).size ∧
    n ≤ round_pow_two n ∧
    ∀ j, n ≤ 2 ^ j → round_pow_two n ≤ 2 ^ j := by
  have hA : 1 ≤ 2 ^ 32 := Nat.one_le_two_pow
  have hm1 : 1 ≤ n - 1 := by omega
  have hm2 : n - 1 < 2 ^ 32 := by omega
  have h63 : (2 : Nat) ^ 32 < 2 ^ 63 := Nat.pow_lt_pow_right (by omega) (by omega)
  have heq : round_pow_two n = smearSteps 5 (n - 1) + 1 := by
    rw [round_pow_two, if_neg, if_neg]
    · omega
    · show ¬ 2 ^ 63 ≤ n
      omega
  have hone : 1 ≤ 2 ^ (n - 1).size := Nat.one_le_two_pow
  have hfin : round_pow_two n = 2 ^ (n - 1).size := by
    rw [heq, smearSteps_five hm1 hm2]
    omega
  refine ⟨hfin, ?_, ?_⟩
  · rw [hfin]
    have := Nat.lt_size_self (n - 1)
    omega
  · intro j hj
    rw [hfin]
    have hsz : (n - 1).size ≤ j := Nat.size_le.2 (by omega)
    exact Nat.pow_le_pow_right (by omega) hsz

/-- C5 counterexample: a capacity hint of 1 yields capacity 1, not the
claimed minimum of 2; and for hints just above `2 ^ 32` the missing
`n |= n >> 32` smearing step makes the result fail to be a power of two at
all (64-bit `size_t`). -/
theorem round_pow_two_counterexample :
    (hashtable_new_conf natConf 1 : HT Nat Nat).capacity = 1 ∧
    ¬ 2 ≤ (hashtable_new_conf natConf 1 : HT Nat Nat).capacity ∧
    round_pow_two (2 ^ 32 + 1) = 8589934591 ∧
    ¬ ∃ k, round_pow_two (2 ^ 32 + 1) = 2 ^ k := by
  have h8 : round_pow_two (2 ^ 32 + 1) = 8589934591 := by decide
  refine ⟨by decide, by decide, h8, ?_⟩
  rintro ⟨k, hk⟩
  rw [h8] at hk
  cases k with
  | zero => norm_num at hk
  | succ k2 =>
    have h0 : (2 : Nat) ^ (k2 + 1) % 2 = 0 := by
      rw [Nat.pow_succ]
      exact Nat.mul_mod_left _ 2
    omega

/-- C5 amended: `round_pow_two 0 = 2` but `round_pow_two 1 = 1` (the capacity
floor of 2 applies only to hint 0); for hints `2 ≤ n ≤ 2 ^ 32` the capacity
is the least power of two that is at least `n`; and every bucket index is
`hash & (capacity - 1)`, which is always below the capacity and equals
`hash % capacity` whenever the capacity is a power of two. -/
theorem round_pow_two_amended :
    round_pow_two 0 = 2 ∧
    round_pow_two 1 = 1 ∧
    (∀ n, 2 ≤ n → n ≤ 2 ^ 32 →
      (∃ k, round_pow_two n = 2 ^ k) ∧
      n ≤ round_pow_two n ∧
      (∀ j, n ≤ 2 ^ j → round_pow_two n ≤ 2 ^ j)) ∧
    (∀ (conf : HTConf K) (t : HT K V) (key : Option K),
      0 < t.capacity → get_table_index conf t key < t.capacity) ∧
    (∀ (conf : HTConf K) (t : HT K V) (key : Option K) (k : Nat),
      t.capacity = 2 ^ k → get_table_index conf t key = conf.hash key % t.capacity) := by
  refine ⟨by decide, by decide, ?_, ?_, ?_⟩
  · intro n hn2 hn32
    obtain ⟨hfin, hle, hmin⟩ := round_pow_two_spec n hn2 hn32
    exact ⟨⟨(n - 1).size, hfin⟩, hle, hmin⟩
  · intro conf t key hpos
    show conf.hash key &&& (t.capacity - 1) < t.capacity
    exact Nat.lt_of_le_of_lt Nat.and_le_right (by omega)
  · intro conf t key k hk
    show conf.hash key &&& (t.capacity - 1) = conf.hash key % t.capacity
    rw [hk]
    exact Nat.and_pow_two_sub_one_eq_mod _ k

/-! ### Claim C2: the growth scenario -/

theorem hashtable_add_fresh (conf : HTConf K) {t : HT K V} (hinv : Invariant conf t)
    {key : Option K} (val : V)
    (hno : ∀ e ∈ allEntries t, ¬ MatchAdd conf key e) :
    (hashtable_add conf t key val).2.size = t.size + 1 ∧
    (allEntries (hashtable_add conf t key val).2).Perm
      ((⟨key, val, entryHash conf key⟩ : TableEntry K V) :: allEntries t) ∧
    Invariant conf (hashtable_add conf t key val).2 := by
  obtain ⟨hinvP, hpermP, hsizeP⟩ := preResize_spec conf hinv
  have hnoP : ∀ e ∈ allEntries
      (if t.threshold ≤ t.size then resize conf t (t.capacity * 2) else t),
      ¬ MatchAdd conf key e :=
    fun e he => hno e (hpermP.mem_iff.1 he)
  obtain ⟨hsz, hperm, hinv2⟩ := add_core_fresh conf hinvP val hnoP
  rw [hashtable_add_eq]
  exact ⟨by rw [hsz, hsizeP], hperm.trans (List.Perm.cons _ hpermP), hinv2⟩

theorem hashtable_add_no_grow (conf : HTConf K) {t : HT K V}
    (h : t.size < t.threshold) (key : Option K) (val : V) :
    (hashtable_add conf t key val).2.capacity = t.capacity ∧
    (hashtable_add conf t key val).2.threshold = t.threshold := by
  rw [hashtable_add_eq, if_neg (by omega)]
  exact add_core_capacity conf t key val

theorem hashtable_add_grow (conf : HTConf K) {t : HT K V}
    (h : t.threshold ≤ t.size) (hmax : t.capacity ≠ MAX_POW_TWO)
    (key : Option K) (val : V) :
    (hashtable_add conf t key val).2.capacity = t.capacity * 2 ∧
    (hashtable_add conf t key val).2.threshold
      = t.capacity * 2 * conf.load_num / conf.load_den := by
  rw [hashtable_add_eq, if_pos h, resize, if_neg hmax]
  exact add_core_capacity conf _ key val

theorem fresh_step (conf : HTConf K) {t : HT K V} {p : Option K × V}
    {l : List (Option K × V)} (hinv : Invariant conf t)
    (hgood : GoodList conf (p :: l))
    (hfresh : ∀ e ∈ allEntries t, ∀ q ∈ p :: l, e.key ≠ q.1 ∧ ¬ MatchAdd conf q.1 e) :
    GoodList conf l ∧
    (∀ e ∈ allEntries (hashtable_add conf t p.1 p.2).2, ∀ q ∈ l,
      e.key ≠ q.1 ∧ ¬ MatchAdd conf q.1 e) ∧
    (hashtable_add conf t p.1 p.2).2.size = t.size + 1 ∧
    (allEntries (hashtable_add conf t p.1 p.2).2).Perm
      ((⟨p.1, p.2, entryHash conf p.1⟩ : TableEntry K V) :: allEntries t) ∧
    Invariant conf (hashtable_add conf t p.1 p.2).2 := by
  have hpair := (List.pairwise_cons.1 hgood.2).1
  have hnop : ∀ e ∈ allEntries t, ¬ MatchAdd conf p.1 e :=
    fun e he => (hfresh e he p (List.mem_cons_self p l)).2
  obtain ⟨hsz1, hperm1, hinv1⟩ := hashtable_add_fresh conf hinv p.2 hnop
  have hgood2 : GoodList conf l :=
    ⟨fun q hq => hgood.1 q (List.mem_cons_of_mem _ hq),
     (List.pairwise_cons.1 hgood.2).2⟩
  have hnewfresh : ∀ q ∈ l,
      (⟨p.1, p.2, entryHash conf p.1⟩ : TableEntry K V).key ≠ q.1 ∧
      ¬ MatchAdd conf q.1 (⟨p.1, p.2, entryHash conf p.1⟩ : TableEntry K V) := by
    intro q hq
    obtain ⟨hne, hc1, hc2⟩ := hpair q hq
    refine ⟨hne, ?_⟩
    cases hq1 : q.1 with
    | none =>
      intro hcon
      have hcon2 : p.1 = none := hcon
      rw [hq1] at hne
      exact hne hcon2
    | some k2 =>
      intro hcon
      have hcon2 : conf.key_cmp p.1 (some k2) = true := hcon
      rw [← hq1, hc1] at hcon2
      cases hcon2
  have hfresh2 : ∀ e ∈ allEntries (hashtable_add conf t p.1 p.2).2, ∀ q ∈ l,
      e.key ≠ q.1 ∧ ¬ MatchAdd conf q.1 e := by
    intro e he q hq
    rcases List.mem_cons.1 (hperm1.mem_iff.1 he) with rfl | he3
    · exact hnewfresh q hq
    · exact hfresh e he3 q (List.mem_cons_of_mem _ hq)
  exact ⟨hgood2, hfresh2, hsz1, hperm1, hinv1⟩

theorem foldAdd_fresh_spec (conf : HTConf K) :
    ∀ (l : List (Option K × V)) (t : HT K V), Invariant conf t → GoodList conf l →
    (∀ e ∈ allEntries t, ∀ p ∈ l, e.key ≠ p.1 ∧ ¬ MatchAdd conf p.1 e) →
    Invariant conf (foldAdd conf t l) ∧
    (foldAdd conf t l).size = t.size + l.length ∧
    (allEntries (foldAdd conf t l)).Perm
      ((l.map fun p => (⟨p.1, p.2, entryHash conf p.1⟩ : TableEntry K V))
        ++ allEntries t) := by
  intro l
  induction l with
  | nil =>
    intro t hinv hgood hfresh
    exact ⟨hinv, rfl, by simp [foldAdd]⟩
  | cons p l ih =>
    intro t hinv hgood hfresh
    obtain ⟨hgood2, hfresh2, hsz1, hperm1, hinv1⟩ := fresh_step conf hinv hgood hfresh
    obtain ⟨hinvN, hszN, hpermN⟩ :=
      ih (hashtable_add conf t p.1 p.2).2 hinv1 hgood2 hfresh2
    refine ⟨hinvN, ?_, ?_⟩
    · show (foldAdd conf (hashtable_add conf t p.1 p.2).2 l).size = t.size + (p :: l).length
      rw [hszN, hsz1, List.length_cons]
      omega
    · show (allEntries (foldAdd conf (hashtable_add conf t p.1 p.2).2 l)).Perm
        (((p :: l).map fun p => (⟨p.1, p.2, entryHash conf p.1⟩ : TableEntry K V))
          ++ allEntries t)
      rw [List.map_cons]
      exact hpermN.trans ((hperm1.append_left _).trans List.perm_middle)

theorem foldAdd_no_grow (conf : HTConf K) :
    ∀ (l : List (Option K × V)) (t : HT K V), Invariant conf t → GoodList conf l →
    (∀ e ∈ allEntries t, ∀ p ∈ l, e.key ≠ p.1 ∧ ¬ MatchAdd conf p.1 e) →
    t.size + l.length ≤ t.threshold →
    (foldAdd conf t l).capacity = t.capacity ∧
    (foldAdd conf t l).threshold = t.threshold := by
  intro l
  induction l with
  | nil =>
    intro t _ _ _ _
    exact ⟨rfl, rfl⟩
  | cons p l ih =>
    intro t hinv hgood hfresh hbound
    obtain ⟨hgood2, hfresh2, hsz1, hperm1, hinv1⟩ := fresh_step conf hinv hgood hfresh
    have hlt : t.size < t.threshold := by
      have := List.length_cons p l
      omega
    obtain ⟨hcap1, hth1⟩ := hashtable_add_no_grow conf hlt p.1 p.2
    have hbound2 : (hashtable_add conf t p.1 p.2).2.size + l.length
        ≤ (hashtable_add conf t p.1 p.2).2.threshold := by
      rw [hsz1, hth1]
      have := List.length_cons p l
      omega
    obtain ⟨hcapN, hthN⟩ :=
      ih (hashtable_add conf t p.1 p.2).2 hinv1 hgood2 hfresh2 hbound2
    constructor
    · show (foldAdd conf (hashtable_add conf t p.1 p.2).2 l).capacity = t.capacity
      rw [hcapN, hcap1]
    · show (foldAdd conf (hashtable_add conf t p.1 p.2).2 l).threshold = t.threshold
      rw [hthN, hth1]

theorem get_of_unique_keyed_entry (conf : HTConf K) {t : HT K V}
    (hinv : Invariant conf t) {key : Option K} {v : V}
    (hrefl : conf.key_cmp key key = true)
    (hmem : (⟨key, v, entryHash conf key⟩ : TableEntry K V) ∈ allEntries t)
    (huniq : ∀ e ∈ allEntries t, MatchAdd conf key e → e.value = v) :
    hashtable_get conf t key = some v := by
  cases key with
  | none =>
    have hb := mem_bucket_of_mem_allEntries hinv hmem
    have h0 : (⟨none, v, entryHash conf none⟩ : TableEntry K V).hash &&& (t.capacity - 1)
        = 0 := Nat.zero_and _
    rw [h0] at hb
    have hex : ∃ e ∈ t.buckets.getD 0 [], e.key = none := ⟨_, hb.1, rfl⟩
    obtain ⟨e2, he2, hk2, hfind⟩ := find_null_in_chain_some hex
    show find_null_in_chain (t.buckets.getD 0 []) = some v
    rw [hfind]
    exact congrArg some (huniq e2 (mem_getD_flatten he2) hk2)
  | some k =>
    have hb := mem_bucket_of_mem_allEntries hinv hmem
    have hex : ∃ e ∈ t.buckets.getD (conf.hash (some k) &&& (t.capacity - 1)) [],
        conf.key_cmp e.key (some k) = true := ⟨_, hb.1, hrefl⟩
    obtain ⟨e2, he2, hk2, hfind⟩ := find_in_chain_some hex
    show find_in_chain conf.key_cmp (some k)
      (t.buckets.getD (conf.hash (some k) &&& (t.capacity - 1)) []) = some v
    rw [hfind]
    exact congrArg some (huniq e2 (mem_getD_flatten he2) hk2)

/-- C2: starting from a table with default capacity 16 and load factor 0.75
(threshold 12), inserting the first 12 of 13 pairwise-distinct keys leaves
the capacity at 16 and the size at 12; inserting the 13th triggers the
pre-insertion resize, so capacity becomes 32 and size 13, and every one of
the 13 keys then looks up to its inserted value. -/
theorem growth_at_threshold (conf : HTConf K) (l : List (Option K × V))
    (hnum : conf.load_num = 3) (hden : conf.load_den = 4)
    (hlen : l.length = 13) (hgood : GoodList conf l) :
    (foldAdd conf (hashtable_new_conf conf 16) (l.take 12)).capacity = 16 ∧
    (foldAdd conf (hashtable_new_conf conf 16) (l.take 12)).size = 12 ∧
    (foldAdd conf (hashtable_new_conf conf 16) l).capacity = 32 ∧
    (foldAdd conf (hashtable_new_conf conf 16) l).size = 13 ∧
    ∀ p ∈ l, hashtable_get conf (foldAdd conf (hashtable_new_conf conf 16) l) p.1
      = some p.2 := by
  have ht0cap : (hashtable_new_conf conf 16 : HT K V).capacity = 16 := by
    show round_pow_two 16 = 16
    decide
  have ht0th : (hashtable_new_conf conf 16 : HT K V).threshold = 12 := by
    show round_pow_two 16 * conf.load_num / conf.load_den = 12
    rw [hnum, hden, show round_pow_two 16 = 16 from by decide]
  have ht0inv : Invariant conf (hashtable_new_conf conf 16 : HT K V) :=
    hashtable_new_conf_invariant conf 16
  have ht0empty : allEntries (hashtable_new_conf conf 16 : HT K V) = [] := by
    show (List.replicate (round_pow_two 16) ([] : List (TableEntry K V))).flatten = []
    exact flatten_replicate_nil _
  have hfreshAll : ∀ (m : List (Option K × V)),
      ∀ e ∈ allEntries (hashtable_new_conf conf 16 : HT K V), ∀ p ∈ m,
      e.key ≠ p.1 ∧ ¬ MatchAdd conf p.1 e := by
    intro m e he
    rw [ht0empty] at he
    cases he
  have ht0size : (hashtable_new_conf conf 16 : HT K V).size = 0 := rfl
  have hlen12 : (l.take 12).length = 12 := by
    rw [List.length_take, hlen]
    decide
  have hgood12 : GoodList conf (l.take 12) :=
    ⟨fun q hq => hgood.1 q (List.mem_of_mem_take hq),
     List.Pairwise.sublist (List.take_sublist 12 l) hgood.2⟩
  obtain ⟨hcap12, hth12⟩ :=
    foldAdd_no_grow conf (l.take 12) (hashtable_new_conf conf 16) ht0inv hgood12
      (hfreshAll (l.take 12)) (by rw [hlen12, ht0th]; exact Nat.le_refl _)
  obtain ⟨hinv12, hsz12, -⟩ :=
    foldAdd_fresh_spec conf (l.take 12) (hashtable_new_conf conf 16) ht0inv hgood12
      (hfreshAll (l.take 12))
  obtain ⟨hinv13, hsz13, hperm13⟩ :=
    foldAdd_fresh_spec conf l (hashtable_new_conf conf 16) ht0inv hgood
      (hfreshAll l)
  have hd1 : (l.drop 12).length = 1 := by
    rw [List.length_drop, hlen]
  obtain ⟨p13, hp13⟩ := List.length_eq_one.1 hd1
  have h1 : l.take 12 ++ [p13] = l := by
    rw [← hp13]
    exact List.take_append_drop 12 l
  have hfold : foldAdd conf (hashtable_new_conf conf 16) l
      = (hashtable_add conf (foldAdd conf (hashtable_new_conf conf 16) (l.take 12))
          p13.1 p13.2).2 := by
    nth_rewrite 1 [← h1]
    simp only [foldAdd, List.foldl_append, List.foldl_cons, List.foldl_nil]
  have hsz12v : (foldAdd conf (hashtable_new_conf conf 16) (l.take 12)).size = 12 := by
    rw [hsz12, hlen12, ht0size]
  have hcap13 : (foldAdd conf (hashtable_new_conf conf 16) l).capacity = 32 := by
    rw [hfold]
    have hgrow := hashtable_add_grow conf
      (t := foldAdd conf (hashtable_new_conf conf 16) (l.take 12))
      (by rw [hth12, ht0th, hsz12v]) (by rw [hcap12, ht0cap]; decide) p13.1 p13.2
    rw [hgrow.1, hcap12, ht0cap]
  refine ⟨by rw [hcap12, ht0cap], hsz12v, hcap13, by rw [hsz13, hlen, ht0size], ?_⟩
  intro p hp
  rw [ht0empty, List.append_nil] at hperm13
  have hmem : (⟨p.1, p.2, entryHash conf p.1⟩ : TableEntry K V)
      ∈ allEntries (foldAdd conf (hashtable_new_conf conf 16) l) :=
    hperm13.mem_iff.2 (List.mem_map_of_mem _ hp)
  have hsymm : Symmetric (fun p q : Option K × V =>
      p.1 ≠ q.1 ∧ conf.key_cmp p.1 q.1 = false ∧ conf.key_cmp q.1 p.1 = false) :=
    fun a b h => ⟨h.1.symm, h.2.2, h.2.1⟩
  have huniq : ∀ e ∈ allEntries (foldAdd conf (hashtable_new_conf conf 16) l),
      MatchAdd conf p.1 e → e.value = p.2 := by
    intro e he hm
    rcases List.mem_map.1 (hperm13.mem_iff.1 he) with ⟨q, hq, rfl⟩
    by_cases hqp : q = p
    · rw [hqp]
    · obtain ⟨hne, hc1, hc2⟩ := List.Pairwise.forall hsymm hgood.2 hq hp hqp
      exfalso
      cases hp1 : p.1 with
      | none =>
        have hcon2 : q.1 = none := by
          rw [hp1] at hm
          exact hm
        rw [hp1] at hne
        exact hne hcon2
      | some k2 =>
        have hcon2 : conf.key_cmp q.1 (some k2) = true := by
          rw [hp1] at hm
          exact hm
        rw [← hp1, hc1] at hcon2
        cases hcon2
  exact get_of_unique_keyed_entry conf hinv13 (hgood.1 p hp) hmem huniq

/-- C2 witness: the concrete thirteen insertions `some 0 ↦ 100`, …,
`some 12 ↦ 112` into a fresh default table over `Nat` keys. -/
theorem growth_at_threshold_witness :
    (foldAdd natConf (hashtable_new_conf natConf 16) (pairs13.take 12)).capacity = 16 ∧
    (foldAdd natConf (hashtable_new_conf natConf 16) (pairs13.take 12)).size = 12 ∧
    (foldAdd natConf (hashtable_new_conf natConf 16) pairs13).capacity = 32 ∧
    (foldAdd natConf (hashtable_new_conf natConf 16) pairs13).size = 13 ∧
    ∀ p ∈ pairs13, hashtable_get natConf (foldAdd natConf
      (hashtable_new_conf natConf 16) pairs13) p.1 = some p.2 :=
  growth_at_threshold natConf pairs13 rfl rfl (by decide) (by decide)

/-- C5 witness: rounding the hint 5 and indexing into a concrete 4-bucket
table. -/
theorem round_pow_two_amended_witness :
    (∃ k, round_pow_two 5 = 2 ^ k) ∧ 5 ≤ round_pow_two 5 ∧
    get_table_index natConf oneEntryTable (some 7) < oneEntryTable.capacity ∧
    get_table_index natConf oneEntryTable (some 7)
      = natConf.hash (some 7) % oneEntryTable.capacity :=
  have h := round_pow_two_amended (K := Nat) (V := Nat)
  ⟨(h.2.2.1 5 (by decide) (by decide)).1,
   (h.2.2.1 5 (by decide) (by decide)).2.1,
   h.2.2.2.1 natConf oneEntryTable (some 7) (by decide),
   h.2.2.2.2 natConf oneEntryTable (some 7) 2 (by decide)⟩

end CC
